import Mathlib

/-!
Verification development for the boss-timer backup engine
(src/utils/backup.ts): the import normalizer, the codec payload
round-trip, the merge preview builder and the conflict resolver.

Modelling conventions:
- JavaScript runtime values reaching the engine after JSON.parse are
  modelled by the inductive JsValue; JavaScript numbers are modelled by
  JsNumber (a finite rational, NaN, or a signed infinity), so that
  Number.isFinite and Math.floor are explicit.
- Date.now() and the random id generator are nondeterministic inputs;
  they are passed as explicit parameters (an integer clock and a list of
  pregenerated id strings).  The id-generation retry loop of
  ensureUniqueId can in principle run forever, so the model consumes a
  finite list of candidate ids and returns none when it is exhausted.
- The JavaScript Map used for channel lookup keeps the last value set
  for a key, hence the reverse-find in mapGetChannel; Array.prototype
  sort with the comparator (a, b) => a.channel - b.channel is a stable
  comparison sort, modelled by insertion sort on the channel key.
-/

/-- JsNumber models a JavaScript number: a finite double (modelled as a
rational), NaN, or one of the two infinities. -/
inductive JsNumber where
  | finite (q : ℚ)
  | nan
  | posInf
  | negInf
deriving DecidableEq, Repr

/-- JsValue models a JavaScript value produced by JSON.parse (plus
undefined being represented as a missing key / Option.none at use
sites). -/
inductive JsValue where
  | null
  | bool (b : Bool)
  | num (n : JsNumber)
  | str (s : String)
  | arr (elems : List JsValue)
  | obj (fields : List (String × JsValue))
deriving Repr

/-- Property lookup on an object field list (post-JSON.parse objects
have unique keys, so first-match lookup is the JS semantics). -/
def lookupField : List (String × JsValue) → String → Option JsValue
  | [], _ => none
  | (k, x) :: rest, key => if k = key then some x else lookupField rest key

/-- JavaScript property access value.key; undefined is none. -/
def getProp (v : JsValue) (key : String) : Option JsValue :=
  match v with
  | .obj fields => lookupField fields key
  | _ => none

/-- Source isObject: typeof value === 'object' && value !== null.
Arrays are objects in JavaScript. -/
def isObject (v : JsValue) : Bool :=
  match v with
  | .obj _ => true
  | .arr _ => true
  | _ => false

/-- Rendering of a finite JS number (integers print without a decimal
point; the non-integer rendering is a stand-in that is injective, which
is all the engine relies on). -/
def jsRatToString (q : ℚ) : String :=
  if q.den = 1 then toString q.num else toString q

/-- String() conversion of a JS number. -/
def jsNumberToString : JsNumber → String
  | .finite q => jsRatToString q
  | .nan => "NaN"
  | .posInf => "Infinity"
  | .negInf => "-Infinity"

mutual

/-- String() conversion of a JS value. -/
def jsStringOf : JsValue → String
  | .null => "null"
  | .bool true => "true"
  | .bool false => "false"
  | .num n => jsNumberToString n
  | .str s => s
  | .obj _ => "[object Object]"
  | .arr xs => String.intercalate "," (jsStringsOfList xs)

/-- Array elements stringify with null (and undefined) as empty. -/
def jsStringsOfList : List JsValue → List String
  | [] => []
  | JsValue.null :: rest => "" :: jsStringsOfList rest
  | v :: rest => jsStringOf v :: jsStringsOfList rest

end

/-- String() conversion of a possibly-undefined JS value. -/
def jsStringOfOpt : Option JsValue → String
  | none => "undefined"
  | some v => jsStringOf v

/-- Model of String.prototype.trim: strip leading and trailing
whitespace characters. -/
def jsTrim (s : String) : String :=
  ⟨((s.data.dropWhile Char.isWhitespace).reverse.dropWhile Char.isWhitespace).reverse⟩

/-- ChannelTimer: one channel row of a boss table (types.ts).  The three
timestamps are optional finite numbers. -/
structure ChannelTimer where
  channel : ℤ
  killedAt : Option ℚ
  earliestRespawnAt : Option ℚ
  latestRespawnAt : Option ℚ
deriving DecidableEq, Repr

/-- BossTable: one boss timer board (types.ts). -/
structure BossTable where
  id : String
  bossName : String
  channelsCount : ℤ
  channels : List ChannelTimer
  createdAt : ℚ
deriving DecidableEq, Repr

/-- ExportPayload (backup.ts). -/
structure ExportPayload where
  version : ℤ
  storageVersion : String
  exportedAt : ℚ
  timezone : String
  tables : List BossTable
deriving DecidableEq, Repr

/-- ImportResult (backup.ts). -/
structure ImportResult where
  payload : ExportPayload
  warnings : List String
deriving DecidableEq, Repr

/-- The two error messages importState can throw: 'Invalid backup
string' and 'Unsupported backup version'. -/
inductive ImportError where
  | invalidFormat
  | unsupportedVersion
deriving DecidableEq, Repr

/-- ConflictChoice (backup.ts). -/
inductive ConflictChoice where
  | mine
  | theirs
deriving DecidableEq, Repr

/-- MergeConflict (backup.ts). -/
structure MergeConflict where
  id : String
  bossName : String
  tableId : String
  channel : ℤ
  mine : ChannelTimer
  theirs : ChannelTimer
deriving DecidableEq, Repr

/-- MergePreview (backup.ts); the defaultChoices record is modelled as
an association list in insertion order. -/
structure MergePreview where
  mergedTables : List BossTable
  conflicts : List MergeConflict
  defaultChoices : List (String × ConflictChoice)
deriving DecidableEq, Repr

/-- BACKUP_VERSION constant. -/
def BACKUP_VERSION : ℤ := 1

/-- STORAGE_VERSION constant. -/
def STORAGE_VERSION : String := "boss-timer/v1"

/-- MIN_CHANNELS constant. -/
def MIN_CHANNELS : ℤ := 1

/-- MAX_CHANNELS constant. -/
def MAX_CHANNELS : ℤ := 50

/-- Source clampChannelsCount: Math.max(1, Math.min(50, Math.floor(v))).
On a JS number the Math.max/min propagate through floor as written. -/
def clampChannelsCount (value : ℚ) : ℤ :=
  max MIN_CHANNELS (min MAX_CHANNELS ⌊value⌋)

/-- Source toEpoch: keep a value only if it is a finite number. -/
def toEpoch (value : Option JsValue) : Option ℚ :=
  match value with
  | some (.num (.finite q)) => some q
  | _ => none

/-- Source hasTimer: at least one of the three timestamps is a number
(in normalized data a present timestamp is always a finite number). -/
def hasTimer (channel : ChannelTimer) : Bool :=
  channel.killedAt.isSome || channel.earliestRespawnAt.isSome ||
    channel.latestRespawnAt.isSome

/-- Rendering of an optional timestamp inside a timer signature: the
JS expression (x ?? '') stringified. -/
def optNumStr : Option ℚ → String
  | none => ""
  | some q => jsRatToString q

/-- Source timerSignature: the three timestamps joined by a bar. -/
def timerSignature (channel : ChannelTimer) : String :=
  String.intercalate "|"
    [optNumStr channel.killedAt, optNumStr channel.earliestRespawnAt,
     optNumStr channel.latestRespawnAt]

/-- Source cloneChannel (a value copy; identity in the value model). -/
def cloneChannel (channel : ChannelTimer) : ChannelTimer :=
  { channel := channel.channel, killedAt := channel.killedAt,
    earliestRespawnAt := channel.earliestRespawnAt,
    latestRespawnAt := channel.latestRespawnAt }

/-- Source cloneTable (a value copy; identity in the value model). -/
def cloneTable (table : BossTable) : BossTable :=
  { table with channels := table.channels.map cloneChannel }

/-- The empty channel object literal with only a channel index. -/
def emptyChannel (n : ℤ) : ChannelTimer :=
  { channel := n, killedAt := none, earliestRespawnAt := none,
    latestRespawnAt := none }

/-- Source ensureUniqueId.  The generator stream of generateTableId is
the explicit list gen; the retry loop returns the first candidate not in
the used set, or none when the finite candidate list is exhausted
(modelling the unbounded retry loop running forever).  Returns the
chosen id, the updated used set, and the remaining generator stream. -/
def ensureUniqueIdGo (usedIds : List String) : List String → Option (String × List String × List String)
  | [] => none
  | g :: gs => if g ∈ usedIds then ensureUniqueIdGo usedIds gs
      else some (g, g :: usedIds, gs)

/-- Source ensureUniqueId entry point. -/
def ensureUniqueId (usedIds : List String) (preferredId : String) (gen : List String) :
    Option (String × List String × List String) :=
  if preferredId ∈ usedIds then ensureUniqueIdGo usedIds gen
  else some (preferredId, preferredId :: usedIds, gen)

/-- Source normalizeChannel. -/
def normalizeChannel (channel : JsValue) : Option ChannelTimer :=
  if isObject channel then
    match getProp channel "channel" with
    | some (.num (.finite q)) =>
        some { channel := max 1 ⌊q⌋,
               killedAt := toEpoch (getProp channel "killedAt"),
               earliestRespawnAt := toEpoch (getProp channel "earliestRespawnAt"),
               latestRespawnAt := toEpoch (getProp channel "latestRespawnAt") }
    | _ => none
  else none

/-- One Map.set step of the dedup pass of normalizeTable: an existing
key keeps its position with the new value (last write wins), a new key
is appended. -/
def upsertChannel (acc : List ChannelTimer) (c : ChannelTimer) : List ChannelTimer :=
  if acc.any (fun d => d.channel = c.channel) then
    acc.map (fun d => if d.channel = c.channel then c else d)
  else acc ++ [c]

/-- Step 3 dedup of normalizeTable (Map insertion, values in first-seen
key order with last-seen values). -/
def dedupeChannels (cs : List ChannelTimer) : List ChannelTimer :=
  cs.foldl upsertChannel []

/-- Ordering of channels used by the sort comparator
(a, b) => a.channel - b.channel. -/
def chanLE (a b : ChannelTimer) : Prop := a.channel ≤ b.channel

instance : DecidableRel chanLE := fun a b =>
  inferInstanceAs (Decidable (a.channel ≤ b.channel))

instance : IsTotal ChannelTimer chanLE :=
  ⟨fun a b => Int.le_total a.channel b.channel⟩

instance : IsTrans ChannelTimer chanLE :=
  ⟨fun _ _ _ hab hbc => le_trans hab hbc⟩

/-- Stable sort ascending by channel number (Array.prototype.sort with a
numeric comparator; keys are unique after dedup, so any stable
comparison sort computes the same list). -/
def sortChannels (cs : List ChannelTimer) : List ChannelTimer :=
  List.insertionSort chanLE cs

/-- Step 2 of normalizeTable: parse the channels array if present. -/
def parseChannels (table : JsValue) : List ChannelTimer :=
  match getProp table "channels" with
  | some (.arr xs) => xs.filterMap normalizeChannel
  | _ => []

/-- The uniqueChannels local of normalizeTable: parsed, deduplicated,
sorted ascending by channel. -/
def uniqueChannelsOf (table : JsValue) : List ChannelTimer :=
  sortChannels (dedupeChannels (parseChannels table))

/-- The maxChannel local of normalizeTable: the channel of the last
element of the sorted unique list, or 0 when empty. -/
def maxObservedOf (table : JsValue) : ℤ :=
  match (uniqueChannelsOf table).getLast? with
  | some c => c.channel
  | none => 0

/-- The requestedCount local of normalizeTable: an explicit finite
channelsCount floored, else the highest observed channel, else 1. -/
def requestedCountOf (table : JsValue) : ℤ :=
  match getProp table "channelsCount" with
  | some (.num (.finite q)) => ⌊q⌋
  | _ => if maxObservedOf table > 0 then maxObservedOf table else MIN_CHANNELS

/-- Lookup in the byChannel Map of normalizeTable (Map construction
keeps the last entry for a duplicated key, hence the reverse). -/
def mapGetChannel (cs : List ChannelTimer) (n : ℤ) : Option ChannelTimer :=
  cs.reverse.find? (fun c => c.channel = n)

/-- Warning emitted when a raw table is not an object. -/
def skippedNotObjectMsg (index : ℕ) : String :=
  "Skipped table #" ++ toString (index + 1) ++ ": not an object."

/-- Warning emitted when a raw table has no usable bossName. -/
def skippedMissingBossMsg (index : ℕ) : String :=
  "Skipped table #" ++ toString (index + 1) ++ ": missing bossName."

/-- Warning emitted when an explicit channelsCount was clamped. -/
def clampedMsg (boss : String) (clamped : ℤ) : String :=
  "Table \"" ++ boss ++ "\": channelsCount was clamped to " ++ toString clamped ++ "."

/-- Warning emitted when the channels array was rebuilt to match the
final count. -/
def rebuiltMsg (boss : String) (before : ℕ) (after : ℤ) : String :=
  "Table \"" ++ boss ++ "\": channels rebuilt (" ++ toString before ++ " -> " ++
    toString after ++ ") to match count."

/-- Timezone-mismatch warning of importState. -/
def tzWarningMsg (tzStr appTimeZone : String) : String :=
  "Backup timezone is \"" ++ tzStr ++ "\", your timezone is \"" ++ appTimeZone ++ "\"."

/-- The generated fallback id of normalizeTable, imported-now-index. -/
def importedId (now : ℤ) (index : ℕ) : String :=
  "imported-" ++ toString now ++ "-" ++ toString index

/-- The channelsCount local of normalizeTable: the clamp of
max(requestedCount, maxChannel). -/
def normalizedCountOf (table : JsValue) : ℤ :=
  clampChannelsCount ((max (requestedCountOf table) (maxObservedOf table) : ℤ) : ℚ)

/-- The clamped-channelsCount warning block (lines 223-228 of
backup.ts): emitted when an explicit finite channelsCount is altered by
clamping. -/
def clampWarningsOf (table : JsValue) (bossName : String) : List String :=
  match getProp table "channelsCount" with
  | some (.num (.finite q)) =>
    if ((clampChannelsCount q : ℤ) : ℚ) = q then []
    else [clampedMsg bossName (clampChannelsCount q)]
  | _ => []

/-- The channels-rebuilt warning block (lines 230-234 of backup.ts). -/
def rebuildWarningsOf (table : JsValue) (bossName : String) : List String :=
  if normalizedCountOf table = ((uniqueChannelsOf table).length : ℤ) then []
  else [rebuiltMsg bossName (uniqueChannelsOf table).length (normalizedCountOf table)]

/-- The dense channels array materialized by normalizeTable: index
1..count from the byChannel map with empty fallbacks. -/
def rebuiltChannelsOf (table : JsValue) : List ChannelTimer :=
  (List.range (normalizedCountOf table).toNat).map (fun (idx : ℕ) =>
    let n : ℤ := (idx : ℤ) + 1
    match mapGetChannel (uniqueChannelsOf table) n with
    | some c => c
    | none => emptyChannel n)

/-- The id assignment of normalizeTable. -/
def normalizedIdOf (table : JsValue) (index : ℕ) (now : ℤ) : String :=
  match getProp table "id" with
  | some (.str s) => if 0 < s.length then s else importedId now index
  | _ => importedId now index

/-- Source normalizeTable.  Warnings pushed by this call are returned
alongside the result (the caller concatenates them in call order); now
models Date.now(). -/
def normalizeTable (table : JsValue) (index : ℕ) (now : ℤ) :
    Option BossTable × List String :=
  if isObject table then
    match getProp table "bossName" with
    | some (.str bossName) =>
      if (jsTrim bossName).length = 0 then (none, [skippedMissingBossMsg index]) else
      (some { id := normalizedIdOf table index now, bossName := bossName,
              channelsCount := normalizedCountOf table,
              channels := rebuiltChannelsOf table,
              createdAt := (toEpoch (getProp table "createdAt")).getD ((now : ℤ) : ℚ) },
       clampWarningsOf table bossName ++ rebuildWarningsOf table bossName)
    | _ => (none, [skippedMissingBossMsg index])
  else (none, [skippedNotObjectMsg index])

/-- Indexed normalization of the raw tables array of importState
(parsed.tables.map((table, index) => normalizeTable(table, index,
warnings)) with per-call warnings kept separate). -/
def normalizeAllFrom (now : ℤ) : ℕ → List JsValue → List (Option BossTable × List String)
  | _, [] => []
  | i, t :: ts => normalizeTable t i now :: normalizeAllFrom now (i + 1) ts

/-- Strict equality test parsed.version === BACKUP_VERSION. -/
def versionOk (parsed : JsValue) : Bool :=
  match getProp parsed "version" with
  | some (.num (.finite q)) => decide (q = (BACKUP_VERSION : ℚ))
  | _ => false

/-- Strict equality test parsed.timezone === APP_TIME_ZONE. -/
def timezoneOk (parsed : JsValue) (appTimeZone : String) : Bool :=
  match getProp parsed "timezone" with
  | some (.str s) => decide (s = appTimeZone)
  | _ => false

/-- Source importState from the point where the transported text has
been unwrapped and JSON-parsed into a value (the trim, base64, gzip and
JSON.parse steps are external runtime transport; their failures are the
earlier InvalidFormat throws).  appTimeZone models APP_TIME_ZONE and now
models Date.now(). -/
def importStateParsed (parsed : JsValue) (appTimeZone : String) (now : ℤ) :
    Except ImportError ImportResult :=
  if isObject parsed then
    if versionOk parsed then
      match getProp parsed "tables" with
      | some (.arr rawTables) =>
        let tzWarnings : List String :=
          if timezoneOk parsed appTimeZone then []
          else [tzWarningMsg (jsStringOfOpt (getProp parsed "timezone")) appTimeZone]
        let results := normalizeAllFrom now 0 rawTables
        let tables := results.filterMap (fun p => p.1)
        let warnings := tzWarnings ++ (results.map (fun p => p.2)).flatten
        .ok { payload :=
                { version := BACKUP_VERSION,
                  storageVersion :=
                    match getProp parsed "storageVersion" with
                    | some (.str s) => if 0 < s.length then s else STORAGE_VERSION
                    | _ => STORAGE_VERSION,
                  exportedAt := (toEpoch (getProp parsed "exportedAt")).getD ((now : ℤ) : ℚ),
                  timezone :=
                    match getProp parsed "timezone" with
                    | some (.str s) => s
                    | _ => appTimeZone,
                  tables := tables },
              warnings := warnings }
      | _ => .error .invalidFormat
    else .error .unsupportedVersion
  else .error .invalidFormat

/-- JSON.stringify representation of an optional timestamp field: an
undefined property is omitted from the serialized object. -/
def optField (key : String) : Option ℚ → List (String × JsValue)
  | none => []
  | some q => [(key, JsValue.num (JsNumber.finite q))]

/-- JSON round-trip image of a ChannelTimer (the value JSON.parse
recovers from JSON.stringify of the channel object). -/
def channelToJs (c : ChannelTimer) : JsValue :=
  .obj (("channel", JsValue.num (JsNumber.finite (c.channel : ℚ))) ::
    (optField "killedAt" c.killedAt ++ optField "earliestRespawnAt" c.earliestRespawnAt ++
     optField "latestRespawnAt" c.latestRespawnAt))

/-- JSON round-trip image of a BossTable. -/
def tableToJs (t : BossTable) : JsValue :=
  .obj [("id", JsValue.str t.id), ("bossName", JsValue.str t.bossName),
        ("channelsCount", JsValue.num (JsNumber.finite (t.channelsCount : ℚ))),
        ("channels", JsValue.arr (t.channels.map channelToJs)),
        ("createdAt", JsValue.num (JsNumber.finite t.createdAt))]

/-- Source exportState composed with the transport decode steps of
importState: the ExportPayload that exportState builds (version,
storageVersion, exportedAt = Date.now(), timezone = APP_TIME_ZONE,
tables), as the parsed value importState recovers after base64/gzip
unwrapping and JSON.parse of the exported blob. -/
def exportStateJs (tables : List BossTable) (now : ℤ) (appTimeZone : String) : JsValue :=
  .obj [("version", JsValue.num (JsNumber.finite (BACKUP_VERSION : ℚ))),
        ("storageVersion", JsValue.str STORAGE_VERSION),
        ("exportedAt", JsValue.num (JsNumber.finite ((now : ℤ) : ℚ))),
        ("timezone", JsValue.str appTimeZone),
        ("tables", JsValue.arr (tables.map tableToJs))]

/-- Channel numbers 1..count of the per-boss merge loop of
buildMergePreview. -/
def channelNumbers (count : ℤ) : List ℤ :=
  (List.range count.toNat).map (fun (i : ℕ) => (i : ℤ) + 1)

/-- Replace the first element satisfying p (List.findIndex plus write at
that index); no match leaves the list unchanged. -/
def updateFirst (p : α → Bool) (f : α → α) : List α → List α
  | [] => []
  | a :: as => if p a then f a :: as else a :: updateFirst p f as

/-- Replace the element at the last index satisfying p (a JS Map from
key to index keeps the last index for a key); no match leaves the list
unchanged. -/
def updateLast (p : α → Bool) (f : α → α) (xs : List α) : List α :=
  (updateFirst p f xs.reverse).reverse

/-- The per-channel loop of buildMergePreview over the listed channel
numbers, threading the global conflict list and defaultChoices record
(conflict ids embed the running global conflict count). -/
def mergeChannelList (existing imported : BossTable) :
    List ℤ → List MergeConflict → List (String × ConflictChoice) →
    List ChannelTimer × List MergeConflict × List (String × ConflictChoice)
  | [], conflicts, defaults => ([], conflicts, defaults)
  | n :: ns, conflicts, defaults =>
    let mine := (mapGetChannel existing.channels n).getD (emptyChannel n)
    let theirs := (mapGetChannel imported.channels n).getD (emptyChannel n)
    let mineHas := hasTimer mine
    let theirsHas := hasTimer theirs
    if !mineHas && theirsHas then
      let (rest, cs, ds) := mergeChannelList existing imported ns conflicts defaults
      (cloneChannel theirs :: rest, cs, ds)
    else if mineHas && !theirsHas then
      let (rest, cs, ds) := mergeChannelList existing imported ns conflicts defaults
      (cloneChannel mine :: rest, cs, ds)
    else if !mineHas && !theirsHas then
      let (rest, cs, ds) := mergeChannelList existing imported ns conflicts defaults
      (emptyChannel n :: rest, cs, ds)
    else if timerSignature mine = timerSignature theirs then
      let (rest, cs, ds) := mergeChannelList existing imported ns conflicts defaults
      (cloneChannel mine :: rest, cs, ds)
    else
      let conflictId := existing.id ++ ":" ++ toString n ++ ":" ++ toString conflicts.length
      let conflict : MergeConflict :=
        { id := conflictId, bossName := existing.bossName, tableId := existing.id,
          channel := n, mine := cloneChannel mine, theirs := cloneChannel theirs }
      let (rest, cs, ds) := mergeChannelList existing imported ns
        (conflicts ++ [conflict]) (defaults ++ [(conflictId, ConflictChoice.mine)])
      (cloneChannel mine :: rest, cs, ds)

/-- The per-imported-table loop of buildMergePreview.  The first list is
the remaining imported tables; gen is the pregenerated id stream for
ensureUniqueId (none when it is exhausted, see ensureUniqueId). -/
def buildMergePreviewGo :
    List BossTable → List BossTable → List MergeConflict → List (String × ConflictChoice) →
    List String → List String →
    Option (List BossTable × List MergeConflict × List (String × ConflictChoice))
  | [], merged, conflicts, defaults, _, _ => some (merged, conflicts, defaults)
  | t :: ts, merged, conflicts, defaults, usedIds, gen =>
    match merged.find? (fun m => m.bossName == t.bossName) with
    | none =>
      match ensureUniqueId usedIds t.id gen with
      | none => none
      | some (uid, usedIds2, gen2) =>
        buildMergePreviewGo ts (merged ++ [{ t with id := uid }]) conflicts defaults usedIds2 gen2
    | some existing =>
      let mergedCount := clampChannelsCount ((max existing.channelsCount t.channelsCount : ℤ) : ℚ)
      let (nextChannels, conflicts2, defaults2) :=
        mergeChannelList existing t (channelNumbers mergedCount) conflicts defaults
      let merged2 := updateFirst (fun m => m.bossName == t.bossName)
        (fun ex => { ex with channelsCount := mergedCount, channels := nextChannels }) merged
      buildMergePreviewGo ts merged2 conflicts2 defaults2 usedIds gen

/-- Source buildMergePreview.  gen is the pregenerated id stream
consumed by ensureUniqueId on id collisions. -/
def buildMergePreview (existingTables importedTables : List BossTable) (gen : List String) :
    Option MergePreview :=
  let mergedTables := existingTables.map cloneTable
  let usedIds := mergedTables.map (fun table => table.id)
  match buildMergePreviewGo (importedTables.map cloneTable) mergedTables [] [] usedIds gen with
  | none => none
  | some (m, c, d) => some { mergedTables := m, conflicts := c, defaultChoices := d }

/-- Record lookup choices[id] on the caller's choices record. -/
def lookupChoice : List (String × ConflictChoice) → String → Option ConflictChoice
  | [], _ => none
  | (k, c) :: rest, key => if k = key then some c else lookupChoice rest key

/-- One iteration of the conflict loop of applyMergeChoices.  The
tableIndexById Map of the source is built once from ids that the loop
never changes, so per-conflict last-index lookup is the same map. -/
def applyConflict (choices : List (String × ConflictChoice)) (result : List BossTable)
    (conflict : MergeConflict) : List BossTable :=
  let selected := (lookupChoice choices conflict.id).getD ConflictChoice.mine
  let chosen := if selected = ConflictChoice.theirs then cloneChannel conflict.theirs
    else cloneChannel conflict.mine
  updateLast (fun table => table.id == conflict.tableId)
    (fun table =>
      let newChannels :=
        updateFirst (fun ch => ch.channel == conflict.channel) (fun _ => chosen) table.channels
      { table with channels := newChannels })
    result

/-- Source applyMergeChoices. -/
def applyMergeChoices (preview : MergePreview) (choices : List (String × ConflictChoice)) :
    List BossTable :=
  preview.conflicts.foldl (applyConflict choices) (preview.mergedTables.map cloneTable)

/-- Channel labels 1..count, the dense labelling invariant of a
well-formed table. -/
def channelLabels (count : ℕ) : List ℤ :=
  (List.range count).map (fun (i : ℕ) => (i : ℤ) + 1)

/-- The BossTable invariant of the spec: count within [1, 50] and the
channels array dense, labelled exactly 1..count in ascending order. -/
def WFTable (t : BossTable) : Prop :=
  1 ≤ t.channelsCount ∧ t.channelsCount ≤ 50 ∧
    t.channels.map (fun c => c.channel) = channelLabels t.channelsCount.toNat

instance (t : BossTable) : Decidable (WFTable t) := by
  unfold WFTable; infer_instance

/-! Basic lemmas about the embedded definitions. -/

theorem cloneChannel_eq (c : ChannelTimer) : cloneChannel c = c := rfl

theorem cloneChannel_fun_eq : cloneChannel = id :=
  funext fun _ => rfl

theorem cloneTable_eq (t : BossTable) : cloneTable t = t := by
  cases t with
  | mk id bossName channelsCount channels createdAt =>
    simp [cloneTable, cloneChannel_fun_eq, List.map_id]

theorem cloneTable_fun_eq : cloneTable = id :=
  funext fun t => cloneTable_eq t

theorem map_cloneTable (l : List BossTable) : l.map cloneTable = l := by
  rw [cloneTable_fun_eq, List.map_id]

theorem hasTimer_false_iff (c : ChannelTimer) :
    hasTimer c = false ↔ c = emptyChannel c.channel := by
  cases c with
  | mk n k e l =>
    cases k <;> cases e <;> cases l <;> simp [hasTimer, emptyChannel]

theorem clampChannelsCount_intCast (n : ℤ) :
    clampChannelsCount ((n : ℤ) : ℚ) = max 1 (min 50 n) := by
  simp [clampChannelsCount, MIN_CHANNELS, MAX_CHANNELS, Int.floor_intCast]

theorem one_le_clampChannelsCount (q : ℚ) : 1 ≤ clampChannelsCount q :=
  le_max_left _ _

theorem clampChannelsCount_le (q : ℚ) : clampChannelsCount q ≤ 50 := by
  simp only [clampChannelsCount, MIN_CHANNELS, MAX_CHANNELS]
  omega

theorem clampChannelsCount_eq_self {n : ℤ} (h1 : 1 ≤ n) (h50 : n ≤ 50) :
    clampChannelsCount ((n : ℤ) : ℚ) = n := by
  rw [clampChannelsCount_intCast]
  omega

theorem channelLabels_succ (n : ℕ) :
    channelLabels (n + 1) = channelLabels n ++ [(n : ℤ) + 1] := by
  simp [channelLabels, List.range_succ]

theorem channelLabels_nodup (n : ℕ) : (channelLabels n).Nodup := by
  unfold channelLabels
  refine List.Nodup.map ?_ (List.nodup_range n)
  intro a b hab
  dsimp at hab
  omega

theorem mem_channelLabels {n : ℕ} {k : ℤ} :
    k ∈ channelLabels n ↔ 1 ≤ k ∧ k ≤ (n : ℤ) := by
  simp only [channelLabels, List.mem_map, List.mem_range]
  constructor
  · rintro ⟨i, hi, rfl⟩
    omega
  · rintro ⟨h1, h2⟩
    refine ⟨(k - 1).toNat, by omega, by omega⟩

theorem channelLabels_getLast? {n : ℕ} (h : 0 < n) :
    (channelLabels n).getLast? = some (n : ℤ) := by
  obtain ⟨m, rfl⟩ : ∃ m, n = m + 1 := ⟨n - 1, by omega⟩
  rw [channelLabels_succ]
  rw [List.getLast?_concat]
  push_cast
  ring_nf

theorem mapGetChannel_some {cs : List ChannelTimer} {n : ℤ} {c : ChannelTimer}
    (h : mapGetChannel cs n = some c) : c.channel = n ∧ c ∈ cs := by
  unfold mapGetChannel at h
  have h1 := List.find?_some h
  have h2 := List.mem_of_find?_eq_some h
  simp only [decide_eq_true_eq] at h1
  exact ⟨h1, List.mem_reverse.mp h2⟩

theorem find?_key_unique {cs : List ChannelTimer} {c : ChannelTimer}
    (hnd : (cs.map (fun d => d.channel)).Nodup) (hc : c ∈ cs) :
    cs.find? (fun d => d.channel = c.channel) = some c := by
  induction cs with
  | nil => cases hc
  | cons a tl ih =>
    simp only [List.map_cons, List.nodup_cons, List.mem_map] at hnd
    rcases List.mem_cons.mp hc with rfl | htl
    · rw [List.find?_cons_of_pos _ (by simp)]
    · have hne : a.channel ≠ c.channel := by
        intro he
        exact hnd.1 ⟨c, htl, he.symm⟩
      rw [List.find?_cons_of_neg _ (by simpa using hne)]
      exact ih hnd.2 htl

theorem mapGetChannel_of_nodup {cs : List ChannelTimer} {c : ChannelTimer}
    (hnd : (cs.map (fun d => d.channel)).Nodup) (hc : c ∈ cs) :
    mapGetChannel cs c.channel = some c := by
  unfold mapGetChannel
  refine find?_key_unique ?_ (List.mem_reverse.mpr hc)
  rw [List.map_reverse]
  exact List.nodup_reverse.mpr hnd

theorem mapGetChannel_eq_none {cs : List ChannelTimer} {n : ℤ}
    (h : n ∉ cs.map (fun d => d.channel)) : mapGetChannel cs n = none := by
  unfold mapGetChannel
  rw [List.find?_eq_none]
  intro c hcmem
  simp only [decide_eq_true_eq]
  intro he
  exact h (List.mem_map.mpr ⟨c, List.mem_reverse.mp hcmem, he⟩)

theorem upsertChannel_map_channel_of_any {acc : List ChannelTimer} {c : ChannelTimer}
    (h : acc.any (fun d => d.channel = c.channel) = true) :
    (upsertChannel acc c).map (fun d => d.channel) = acc.map (fun d => d.channel) := by
  unfold upsertChannel
  rw [if_pos h, List.map_map]
  apply List.map_congr_left
  intro d _
  dsimp
  by_cases hd : d.channel = c.channel
  · rw [if_pos (by simpa using hd), hd]
  · rw [if_neg (by simpa using hd)]

theorem mem_upsertChannel {acc : List ChannelTimer} {c x : ChannelTimer}
    (hx : x ∈ upsertChannel acc c) : x ∈ acc ∨ x = c := by
  unfold upsertChannel at hx
  split at hx
  · rcases List.mem_map.mp hx with ⟨d, hd, rfl⟩
    by_cases h : d.channel = c.channel
    · right
      simp [h]
    · left
      simpa [h] using hd
  · rcases List.mem_append.mp hx with h | h
    · exact Or.inl h
    · exact Or.inr (by simpa using h)

theorem mem_foldl_upsert {cs : List ChannelTimer} :
    ∀ {acc x}, x ∈ cs.foldl upsertChannel acc → x ∈ acc ∨ x ∈ cs := by
  induction cs with
  | nil => intro acc x hx; exact Or.inl hx
  | cons a tl ih =>
    intro acc x hx
    rcases ih hx with h | h
    · rcases mem_upsertChannel h with h2 | h2
      · exact Or.inl h2
      · exact Or.inr (by simp [h2])
    · exact Or.inr (List.mem_cons_of_mem a h)

theorem mem_dedupeChannels {cs : List ChannelTimer} {x : ChannelTimer}
    (hx : x ∈ dedupeChannels cs) : x ∈ cs := by
  rcases mem_foldl_upsert hx with h | h
  · cases h
  · exact h

theorem upsertChannel_nodup_keys {acc : List ChannelTimer} {c : ChannelTimer}
    (h : (acc.map (fun d => d.channel)).Nodup) :
    ((upsertChannel acc c).map (fun d => d.channel)).Nodup := by
  by_cases hany : acc.any (fun d => d.channel = c.channel) = true
  · rw [upsertChannel_map_channel_of_any hany]
    exact h
  · unfold upsertChannel
    rw [if_neg hany, List.map_append]
    rw [List.nodup_append]
    refine ⟨h, List.nodup_singleton _, ?_⟩
    intro k hk hk2
    simp only [List.map_cons, List.map_nil, List.mem_singleton] at hk2
    subst hk2
    rcases List.mem_map.mp hk with ⟨d, hd, hdc⟩
    exact (List.any_eq_false.mp (Bool.not_eq_true _ ▸ hany) d hd) (by simpa using hdc)

theorem dedupeChannels_nodup_keys (cs : List ChannelTimer) :
    ((dedupeChannels cs).map (fun d => d.channel)).Nodup := by
  unfold dedupeChannels
  suffices h : ∀ acc : List ChannelTimer, (acc.map (fun d => d.channel)).Nodup →
      ((cs.foldl upsertChannel acc).map (fun d => d.channel)).Nodup by
    exact h [] (by simp)
  induction cs with
  | nil => intro acc hacc; exact hacc
  | cons a tl ih =>
    intro acc hacc
    exact ih _ (upsertChannel_nodup_keys hacc)

theorem uniqueChannelsOf_perm_dedupe (v : JsValue) :
    (uniqueChannelsOf v).Perm (dedupeChannels (parseChannels v)) :=
  List.perm_insertionSort chanLE _

theorem uniqueChannelsOf_nodup_keys (v : JsValue) :
    ((uniqueChannelsOf v).map (fun d => d.channel)).Nodup := by
  have hperm := (uniqueChannelsOf_perm_dedupe v).map (fun d => d.channel)
  exact hperm.nodup_iff.mpr (dedupeChannels_nodup_keys _)

theorem mem_uniqueChannelsOf {v : JsValue} {c : ChannelTimer}
    (hc : c ∈ uniqueChannelsOf v) : c ∈ parseChannels v :=
  mem_dedupeChannels ((List.mem_insertionSort chanLE).mp hc)

theorem normalizeChannel_channel_ge {x : JsValue} {c : ChannelTimer}
    (h : normalizeChannel x = some c) : 1 ≤ c.channel := by
  unfold normalizeChannel at h
  split at h
  · split at h
    · injection h with h2
      subst h2
      exact le_max_left _ _
    · cases h
  · cases h

theorem mem_parseChannels_channel_ge {v : JsValue} {c : ChannelTimer}
    (hc : c ∈ parseChannels v) : 1 ≤ c.channel := by
  unfold parseChannels at hc
  split at hc
  · rcases List.mem_filterMap.mp hc with ⟨a, _, ha⟩
    exact normalizeChannel_channel_ge ha
  · cases hc

theorem mem_uniqueChannelsOf_channel_ge {v : JsValue} {c : ChannelTimer}
    (hc : c ∈ uniqueChannelsOf v) : 1 ≤ c.channel :=
  mem_parseChannels_channel_ge (mem_uniqueChannelsOf hc)

theorem sorted_channel_le_getLast :
    ∀ {l : List ChannelTimer}, List.Sorted chanLE l → ∀ c ∈ l,
      ∃ d, l.getLast? = some d ∧ c.channel ≤ d.channel := by
  intro l
  induction l with
  | nil => intro _ c hc; cases hc
  | cons a tl ih =>
    intro hs c hc
    cases tl with
    | nil =>
      have hca : c = a := by simpa using hc
      subst hca
      exact ⟨c, rfl, le_refl _⟩
    | cons b tl2 =>
      have hs2 : List.Sorted chanLE (b :: tl2) := hs.of_cons
      have hab : chanLE a b := List.rel_of_sorted_cons hs b (by simp)
      rcases List.mem_cons.mp hc with rfl | htl
      · obtain ⟨d, hd, hbd⟩ := ih hs2 b (List.mem_cons_self b tl2)
        exact ⟨d, by rw [List.getLast?_cons_cons]; exact hd, le_trans hab hbd⟩
      · obtain ⟨d, hd, hcd⟩ := ih hs2 c htl
        exact ⟨d, by rw [List.getLast?_cons_cons]; exact hd, hcd⟩

theorem uniqueChannelsOf_sorted (v : JsValue) :
    List.Sorted chanLE (uniqueChannelsOf v) :=
  List.sorted_insertionSort chanLE _

theorem channel_le_maxObservedOf {v : JsValue} {c : ChannelTimer}
    (hc : c ∈ uniqueChannelsOf v) : c.channel ≤ maxObservedOf v := by
  obtain ⟨d, hd, hle⟩ := sorted_channel_le_getLast (uniqueChannelsOf_sorted v) c hc
  unfold maxObservedOf
  rw [hd]
  exact hle

theorem rebuiltChannelsOf_labels (v : JsValue) :
    (rebuiltChannelsOf v).map (fun c => c.channel) =
      channelLabels (normalizedCountOf v).toNat := by
  unfold rebuiltChannelsOf channelLabels
  rw [List.map_map]
  apply List.map_congr_left
  intro idx _
  dsimp
  cases hm : mapGetChannel (uniqueChannelsOf v) ((idx : ℤ) + 1) with
  | none => rfl
  | some c => exact (mapGetChannel_some hm).1

theorem normalizeTable_some_inv {v : JsValue} {i : ℕ} {now : ℤ} {t : BossTable}
    {ws : List String} (h : normalizeTable v i now = (some t, ws)) :
    isObject v = true ∧ ∃ bossName, getProp v "bossName" = some (.str bossName) ∧
      (jsTrim bossName).length ≠ 0 ∧
      t = { id := normalizedIdOf v i now, bossName := bossName,
            channelsCount := normalizedCountOf v, channels := rebuiltChannelsOf v,
            createdAt := (toEpoch (getProp v "createdAt")).getD ((now : ℤ) : ℚ) } ∧
      ws = clampWarningsOf v bossName ++ rebuildWarningsOf v bossName := by
  unfold normalizeTable at h
  split at h
  case isTrue hobj =>
    split at h
    case h_1 bossName hb =>
      split at h
      case isTrue => cases h
      case isFalse hne =>
        obtain ⟨h1, h2⟩ := Prod.mk.injEq _ _ _ _ ▸ h
        injection h1 with h1
        exact ⟨hobj, bossName, hb, hne, h1.symm, h2.symm⟩
    case h_2 => cases h
  case isFalse => cases h

theorem normalizeTable_WFTable {v : JsValue} {i : ℕ} {now : ℤ} {t : BossTable}
    {ws : List String} (h : normalizeTable v i now = (some t, ws)) : WFTable t := by
  obtain ⟨hobj, b, hb, hbne, rfl, rfl⟩ := normalizeTable_some_inv h
  exact ⟨one_le_clampChannelsCount _, clampChannelsCount_le _, rebuiltChannelsOf_labels v⟩

theorem mem_rebuiltChannelsOf {v : JsValue} {c : ChannelTimer}
    (hmem : c ∈ uniqueChannelsOf v) (h2 : c.channel ≤ normalizedCountOf v) :
    c ∈ rebuiltChannelsOf v := by
  have h1 : 1 ≤ c.channel := mem_uniqueChannelsOf_channel_ge hmem
  unfold rebuiltChannelsOf
  refine List.mem_map.mpr ⟨(c.channel - 1).toNat, List.mem_range.mpr (by omega), ?_⟩
  dsimp
  have hn : ((c.channel - 1).toNat : ℤ) + 1 = c.channel := by omega
  rw [hn, mapGetChannel_of_nodup (uniqueChannelsOf_nodup_keys v) hmem]

theorem clampWarningsOf_eq_single {v : JsValue} {b : String} {q : ℚ}
    (hq : getProp v "channelsCount" = some (JsValue.num (JsNumber.finite q)))
    (hne : ((clampChannelsCount q : ℤ) : ℚ) ≠ q) :
    clampWarningsOf v b = [clampedMsg b (clampChannelsCount q)] := by
  unfold clampWarningsOf
  simp only [hq]
  rw [if_neg hne]

theorem requestedCountOf_of_explicit {v : JsValue} {q : ℚ}
    (hq : getProp v "channelsCount" = some (JsValue.num (JsNumber.finite q))) :
    requestedCountOf v = ⌊q⌋ := by
  unfold requestedCountOf
  simp only [hq]

/-- Helper: an explicit count outside [1, 50] is always altered by
clamping. -/
theorem clamp_ne_of_out_of_range {q : ℚ} (h : ¬(1 ≤ q ∧ q ≤ 50)) :
    ((clampChannelsCount q : ℤ) : ℚ) ≠ q := by
  intro he
  apply h
  constructor
  · calc (1 : ℚ) = ((1 : ℤ) : ℚ) := by norm_num
    _ ≤ ((clampChannelsCount q : ℤ) : ℚ) := by
        exact_mod_cast one_le_clampChannelsCount q
    _ = q := he
  · calc q = ((clampChannelsCount q : ℤ) : ℚ) := he.symm
    _ ≤ ((50 : ℤ) : ℚ) := by exact_mod_cast clampChannelsCount_le q
    _ = 50 := by norm_num

/-- C9 supporting instance of the clamp at an explicit 1000. -/
theorem clampChannelsCount_thousand : clampChannelsCount (1000 : ℚ) = 50 := by
  decide

/-- C9: an explicit finite raw channelsCount of 1000 (with no observed
channel above 50) yields a warning citing the boss name and the clamped
value 50, and a final channelsCount of 50; in general an explicit
finite channelsCount outside [1, 50] is clamped into [1, 50] with a
warning citing the boss name and the clamped value, and such a table is
never rejected (acceptance depends only on the envelope being an object
with a usable bossName). -/
theorem c9_clamped_channels_count :
    (∀ (v : JsValue) (i : ℕ) (now : ℤ) (t : BossTable) (ws : List String) (b : String),
      normalizeTable v i now = (some t, ws) →
      getProp v "bossName" = some (JsValue.str b) →
      getProp v "channelsCount" = some (JsValue.num (JsNumber.finite 1000)) →
      maxObservedOf v ≤ 50 →
      t.channelsCount = 50 ∧ clampedMsg b 50 ∈ ws) ∧
    (∀ (v : JsValue) (i : ℕ) (now : ℤ) (t : BossTable) (ws : List String) (b : String) (q : ℚ),
      normalizeTable v i now = (some t, ws) →
      getProp v "bossName" = some (JsValue.str b) →
      getProp v "channelsCount" = some (JsValue.num (JsNumber.finite q)) →
      ¬(1 ≤ q ∧ q ≤ 50) →
      clampedMsg b (clampChannelsCount q) ∈ ws ∧
        1 ≤ t.channelsCount ∧ t.channelsCount ≤ 50) ∧
    (∀ (v : JsValue) (i : ℕ) (now : ℤ),
      isObject v = true →
      (∃ b, getProp v "bossName" = some (JsValue.str b) ∧ (jsTrim b).length ≠ 0) →
      ((normalizeTable v i now).1).isSome = true) := by
  refine ⟨?_, ?_, ?_⟩
  · intro v i now t ws b hnorm hb hq hmax
    obtain ⟨hobj, b2, hb2, hbne, rfl, rfl⟩ := normalizeTable_some_inv hnorm
    have hbb : b2 = b := by
      rw [hb] at hb2
      injection hb2 with h1
      injection h1 with h2
      exact h2.symm
    rw [hbb]
    have hreq : requestedCountOf v = 1000 := by
      rw [requestedCountOf_of_explicit hq]
      decide
    constructor
    · show normalizedCountOf v = 50
      unfold normalizedCountOf
      rw [clampChannelsCount_intCast, hreq]
      omega
    · have hw : clampWarningsOf v b = [clampedMsg b 50] := by
        rw [clampWarningsOf_eq_single hq]
        · rw [clampChannelsCount_thousand]
        · rw [clampChannelsCount_thousand]
          norm_num
      rw [hw]
      exact List.mem_append_left _ (List.mem_singleton.mpr rfl)
  · intro v i now t ws b q hnorm hb hq hout
    obtain ⟨hobj, b2, hb2, hbne, rfl, rfl⟩ := normalizeTable_some_inv hnorm
    have hbb : b2 = b := by
      rw [hb] at hb2
      injection hb2 with h1
      injection h1 with h2
      exact h2.symm
    rw [hbb]
    refine ⟨?_, one_le_clampChannelsCount _, clampChannelsCount_le _⟩
    rw [clampWarningsOf_eq_single hq (clamp_ne_of_out_of_range hout)]
    exact List.mem_append_left _ (List.mem_singleton.mpr rfl)
  · intro v i now hobj hex
    obtain ⟨b, hb, hbne⟩ := hex
    unfold normalizeTable
    rw [if_pos hobj]
    simp only [hb]
    rw [if_neg hbne]
    rfl

/-- Raw table used to witness C9. -/
def c9Raw : JsValue :=
  .obj [("bossName", JsValue.str "X"),
        ("channelsCount", JsValue.num (JsNumber.finite 1000))]

/-- Normalized table produced from c9Raw. -/
def c9OutTable : BossTable :=
  { id := importedId 0 0, bossName := "X", channelsCount := 50,
    channels := (channelNumbers 50).map emptyChannel, createdAt := 0 }

/-- Warnings produced from c9Raw. -/
def c9OutWs : List String := [clampedMsg "X" 50, rebuiltMsg "X" 0 50]

/-- Witness for C9 at the concrete raw table c9Raw. -/
theorem c9_witness : c9OutTable.channelsCount = 50 ∧ clampedMsg "X" 50 ∈ c9OutWs :=
  c9_clamped_channels_count.1 c9Raw 0 0 c9OutTable c9OutWs "X" (by decide) rfl rfl
    (by decide)

/-- C1 (amended): for every raw table normalizeTable accepts, the final
channelsCount equals the clamp to [1, 50] of max(requested count,
highest observed channel), and every channel entry surviving
deduplication whose channel number does not exceed MAX_CHANNELS appears
with its timer data in the output channels array (an entry with channel
number above 50 is discarded by the clamp, see the counterexample). -/
theorem c1_count_formula_and_retention (v : JsValue) (i : ℕ) (now : ℤ)
    (t : BossTable) (ws : List String)
    (h : normalizeTable v i now = (some t, ws)) :
    t.channelsCount = max 1 (min 50 (max (requestedCountOf v) (maxObservedOf v))) ∧
    ∀ c ∈ uniqueChannelsOf v, c.channel ≤ MAX_CHANNELS → c ∈ t.channels := by
  obtain ⟨hobj, b, hb, hbne, rfl, rfl⟩ := normalizeTable_some_inv h
  constructor
  · show normalizedCountOf v = _
    unfold normalizedCountOf
    exact clampChannelsCount_intCast _
  · intro c hcmem hc50
    show c ∈ rebuiltChannelsOf v
    apply mem_rebuiltChannelsOf hcmem
    have h1 := channel_le_maxObservedOf hcmem
    have h2 := mem_uniqueChannelsOf_channel_ge hcmem
    unfold MAX_CHANNELS at hc50
    unfold normalizedCountOf
    rw [clampChannelsCount_intCast]
    omega

/-- Raw table whose only observed channel number is 60, above
MAX_CHANNELS. -/
def c1Raw : JsValue :=
  .obj [("bossName", JsValue.str "X"),
        ("channels", JsValue.arr [JsValue.obj
          [("channel", JsValue.num (JsNumber.finite 60)),
           ("killedAt", JsValue.num (JsNumber.finite 5))]])]

/-- Counterexample to C1 as stated: the channel-60 entry survives
deduplication but does not appear in the normalized channels array (the
final count is clamped to 50, discarding it). -/
theorem c1_truncation_counterexample :
    (⟨60, some 5, none, none⟩ : ChannelTimer) ∈ uniqueChannelsOf c1Raw ∧
    (normalizeTable c1Raw 0 0).1.map
      (fun t => decide ((⟨60, some 5, none, none⟩ : ChannelTimer) ∈ t.channels)) =
      some false := by
  decide

/-- Raw table used to witness C1. -/
def c1WitRaw : JsValue :=
  .obj [("bossName", JsValue.str "B"),
        ("channels", JsValue.arr [JsValue.obj
          [("channel", JsValue.num (JsNumber.finite 2)),
           ("killedAt", JsValue.num (JsNumber.finite 7))]])]

/-- Normalized table produced from c1WitRaw. -/
def c1WitTable : BossTable :=
  { id := importedId 0 0, bossName := "B", channelsCount := 2,
    channels := [emptyChannel 1, ⟨2, some 7, none, none⟩], createdAt := 0 }

/-- Witness for C1 at the concrete raw table c1WitRaw. -/
theorem c1_witness :
    c1WitTable.channelsCount =
      max 1 (min 50 (max (requestedCountOf c1WitRaw) (maxObservedOf c1WitRaw))) ∧
    (⟨2, some 7, none, none⟩ : ChannelTimer) ∈ c1WitTable.channels := by
  have h := c1_count_formula_and_retention c1WitRaw 0 0 c1WitTable
    [rebuiltMsg "B" 1 2] (by decide)
  exact ⟨h.1, h.2 ⟨2, some 7, none, none⟩ (by decide) (by decide)⟩

theorem versionOk_iff (parsed : JsValue) :
    versionOk parsed = true ↔
      getProp parsed "version" = some (JsValue.num (JsNumber.finite 1)) := by
  unfold versionOk
  split
  case h_1 x q hq =>
    simp only [decide_eq_true_eq]
    constructor
    · intro h
      rw [hq, h]
      norm_num [BACKUP_VERSION]
    · intro h
      rw [hq] at h
      injection h with h1
      injection h1 with h2
      injection h2 with h3
  case h_2 x hno =>
    constructor
    · intro h
      cases h
    · intro h
      exact absurd h (by
        intro he
        exact hno 1 he)

/-- C6: for every parsed envelope that is a keyed record (JS object),
importState fails with UnsupportedVersion exactly when the version
field is not strictly equal to the number 1 (absent, non-number, lower
or higher all included), no matter how well-formed the rest is; with
version equal to 1 the UnsupportedVersion error is never raised. -/
theorem c6_unsupported_version_iff (parsed : JsValue) (appTimeZone : String) (now : ℤ)
    (hobj : isObject parsed = true) :
    importStateParsed parsed appTimeZone now = .error .unsupportedVersion ↔
      getProp parsed "version" ≠ some (JsValue.num (JsNumber.finite 1)) := by
  unfold importStateParsed
  rw [if_pos hobj]
  by_cases hv : versionOk parsed = true
  · rw [if_pos hv]
    constructor
    · intro h
      exfalso
      split at h
      · exact Except.noConfusion h
      · injection h with h2
        exact ImportError.noConfusion h2
    · intro hne
      exact absurd ((versionOk_iff parsed).mp hv) hne
  · rw [if_neg hv]
    constructor
    · intro _ heq
      exact hv ((versionOk_iff parsed).mpr heq)
    · intro _
      rfl

/-- Witness for C6: a record with version 2 is rejected with
UnsupportedVersion. -/
theorem c6_witness :
    importStateParsed (JsValue.obj [("version", JsValue.num (JsNumber.finite 2))])
      "UTC" 0 = .error .unsupportedVersion := by
  apply (c6_unsupported_version_iff
    (JsValue.obj [("version", JsValue.num (JsNumber.finite 2))]) "UTC" 0 rfl).mpr
  intro h
  simp only [getProp, lookupField, if_pos] at h
  injection h with h1
  injection h1 with h2
  injection h2 with h3
  norm_num at h3

/-! Round-trip lemmas: renormalizing the JSON image of a well-formed
table recovers the table exactly, with no warnings. -/

theorem String.length_pos_of_ne {s : String} (h : s ≠ "") : 0 < s.length := by
  cases s with
  | mk data =>
    cases data with
    | nil => exact absurd rfl h
    | cons c cs => simp [String.length]

theorem importedId_ne_empty (now : ℤ) (index : ℕ) : importedId now index ≠ "" := by
  intro h
  have h2 : (importedId now index).length = 0 := by rw [h]; rfl
  unfold importedId at h2
  rw [String.length_append, String.length_append, String.length_append] at h2
  have h3 : ("imported-" : String).length = 9 := rfl
  omega

theorem normalizedIdOf_ne_empty (v : JsValue) (i : ℕ) (now : ℤ) :
    normalizedIdOf v i now ≠ "" := by
  unfold normalizedIdOf
  split
  case h_1 x s hx =>
    split
    case isTrue hlen =>
      intro h
      rw [h] at hlen
      exact absurd hlen (by decide)
    case isFalse => exact importedId_ne_empty now i
  case h_2 => exact importedId_ne_empty now i

theorem normalizeChannel_channelToJs {c : ChannelTimer} (h : 1 ≤ c.channel) :
    normalizeChannel (channelToJs c) = some c := by
  obtain ⟨n, k, e, l⟩ := c
  have hn : 1 ≤ n := h
  have hmax : max 1 ⌊((n : ℤ) : ℚ)⌋ = n := by
    rw [Int.floor_intCast]
    omega
  cases k <;> cases e <;> cases l <;>
    simp [channelToJs, optField, normalizeChannel, getProp, lookupField, toEpoch,
      isObject, hmax] <;> exact hn

theorem filterMap_eq_self_of_some {α : Type} {f : α → Option α} {l : List α}
    (h : ∀ a ∈ l, f a = some a) : l.filterMap f = l := by
  induction l with
  | nil => rfl
  | cons a tl ih =>
    rw [List.filterMap_cons, h a (List.mem_cons_self a tl)]
    rw [ih (fun x hx => h x (List.mem_cons_of_mem a hx))]

theorem parseChannels_tableToJs {t : BossTable}
    (h : ∀ c ∈ t.channels, 1 ≤ c.channel) :
    parseChannels (tableToJs t) = t.channels := by
  have hch : getProp (tableToJs t) "channels" =
      some (JsValue.arr (t.channels.map channelToJs)) := rfl
  unfold parseChannels
  rw [hch]
  show List.filterMap normalizeChannel (t.channels.map channelToJs) = t.channels
  rw [List.filterMap_map]
  refine filterMap_eq_self_of_some ?_
  intro c hc
  exact normalizeChannel_channelToJs (h c hc)

theorem foldl_upsert_eq_append {cs : List ChannelTimer} :
    ∀ {acc : List ChannelTimer},
      (((acc ++ cs).map (fun d => d.channel)).Nodup) →
      cs.foldl upsertChannel acc = acc ++ cs := by
  induction cs with
  | nil => intro acc _; simp
  | cons a tl ih =>
    intro acc hnd
    have hnotin : a.channel ∉ acc.map (fun d => d.channel) := by
      intro hmem
      rw [List.map_append, List.nodup_append] at hnd
      exact hnd.2.2 hmem (by simp)
    have hany : acc.any (fun d => d.channel = a.channel) = false := by
      rw [List.any_eq_false]
      intro d hd
      simp only [decide_eq_true_eq]
      intro he
      exact hnotin (List.mem_map.mpr ⟨d, hd, he⟩)
    have hup : upsertChannel acc a = acc ++ [a] := by
      unfold upsertChannel
      rw [if_neg (by simp [hany])]
    rw [List.foldl_cons, hup]
    rw [ih (by simpa using hnd)]
    simp

theorem dedupeChannels_eq_self {cs : List ChannelTimer}
    (h : (cs.map (fun d => d.channel)).Nodup) : dedupeChannels cs = cs := by
  unfold dedupeChannels
  have h2 := @foldl_upsert_eq_append cs [] (by simpa using h)
  simpa using h2

theorem channelLabels_pairwise_le (n : ℕ) :
    (channelLabels n).Pairwise (· ≤ ·) := by
  unfold channelLabels
  rw [List.pairwise_map]
  refine (List.pairwise_lt_range n).imp ?_
  intro a b hab
  omega

theorem sorted_of_labels {cs : List ChannelTimer} {n : ℕ}
    (h : cs.map (fun d => d.channel) = channelLabels n) :
    List.Sorted chanLE cs := by
  have hp : (cs.map (fun d => d.channel)).Pairwise (· ≤ ·) := by
    rw [h]
    exact channelLabels_pairwise_le n
  rw [List.pairwise_map] at hp
  exact hp

theorem sortChannels_eq_self {cs : List ChannelTimer}
    (h : List.Sorted chanLE cs) : sortChannels cs = cs :=
  h.insertionSort_eq

theorem WFTable.channel_ge {t : BossTable} (h : WFTable t) :
    ∀ c ∈ t.channels, 1 ≤ c.channel := by
  intro c hc
  have hmem : c.channel ∈ t.channels.map (fun d => d.channel) :=
    List.mem_map.mpr ⟨c, hc, rfl⟩
  rw [h.2.2] at hmem
  exact (mem_channelLabels.mp hmem).1

theorem WFTable.nodup_keys {t : BossTable} (h : WFTable t) :
    (t.channels.map (fun d => d.channel)).Nodup := by
  rw [h.2.2]
  exact channelLabels_nodup _

theorem WFTable.length_channels {t : BossTable} (h : WFTable t) :
    t.channels.length = t.channelsCount.toNat := by
  have := congrArg List.length h.2.2
  simpa [channelLabels] using this

theorem uniqueChannelsOf_tableToJs {t : BossTable} (h : WFTable t) :
    uniqueChannelsOf (tableToJs t) = t.channels := by
  unfold uniqueChannelsOf
  rw [parseChannels_tableToJs h.channel_ge]
  rw [dedupeChannels_eq_self h.nodup_keys]
  exact sortChannels_eq_self (sorted_of_labels h.2.2)

theorem maxObservedOf_tableToJs {t : BossTable} (h : WFTable t) :
    maxObservedOf (tableToJs t) = t.channelsCount := by
  unfold maxObservedOf
  rw [uniqueChannelsOf_tableToJs h]
  have h1 : 1 ≤ t.channelsCount := h.1
  have hlast : (t.channels.map (fun d => d.channel)).getLast? =
      some ((t.channelsCount.toNat : ℕ) : ℤ) := by
    rw [h.2.2]
    exact channelLabels_getLast? (by omega)
  rw [List.getLast?_map] at hlast
  cases hget : t.channels.getLast? with
  | none =>
    rw [hget] at hlast
    cases hlast
  | some d =>
    rw [hget] at hlast
    simp only [Option.map] at hlast
    injection hlast with h2
    show d.channel = t.channelsCount
    rw [h2]
    omega

theorem requestedCountOf_tableToJs (t : BossTable) :
    requestedCountOf (tableToJs t) = t.channelsCount := by
  have hq : getProp (tableToJs t) "channelsCount" =
      some (JsValue.num (JsNumber.finite ((t.channelsCount : ℤ) : ℚ))) := rfl
  rw [requestedCountOf_of_explicit hq]
  exact Int.floor_intCast _

theorem normalizedCountOf_tableToJs {t : BossTable} (h : WFTable t) :
    normalizedCountOf (tableToJs t) = t.channelsCount := by
  unfold normalizedCountOf
  rw [requestedCountOf_tableToJs, maxObservedOf_tableToJs h, max_self]
  exact clampChannelsCount_eq_self h.1 h.2.1

theorem rebuiltChannelsOf_tableToJs {t : BossTable} (h : WFTable t) :
    rebuiltChannelsOf (tableToJs t) = t.channels := by
  unfold rebuiltChannelsOf
  rw [normalizedCountOf_tableToJs h, uniqueChannelsOf_tableToJs h]
  have hlen : t.channels.length = t.channelsCount.toNat := h.length_channels
  apply List.ext_getElem
  · simp [hlen]
  · intro i h1 h2
    simp only [List.getElem_map, List.getElem_range]
    have hic : t.channels[i].channel = (i : ℤ) + 1 := by
      have hi3 : i < (t.channels.map (fun d => d.channel)).length := by
        simpa using h2
      have heq := List.getElem_of_eq h.2.2 hi3
      rw [List.getElem_map] at heq
      rw [heq]
      simp [channelLabels]
    have hml := mapGetChannel_of_nodup h.nodup_keys (List.getElem_mem h2)
    rw [hic] at hml
    simp only [hml]

theorem clampWarningsOf_tableToJs {t : BossTable} (h : WFTable t) (b : String) :
    clampWarningsOf (tableToJs t) b = [] := by
  unfold clampWarningsOf
  have hq : getProp (tableToJs t) "channelsCount" =
      some (JsValue.num (JsNumber.finite ((t.channelsCount : ℤ) : ℚ))) := rfl
  simp only [hq]
  rw [if_pos]
  exact congrArg _ (clampChannelsCount_eq_self h.1 h.2.1)

theorem rebuildWarningsOf_tableToJs {t : BossTable} (h : WFTable t) (b : String) :
    rebuildWarningsOf (tableToJs t) b = [] := by
  have h1 : 1 ≤ t.channelsCount := h.1
  unfold rebuildWarningsOf
  rw [if_pos]
  rw [normalizedCountOf_tableToJs h, uniqueChannelsOf_tableToJs h, h.length_channels]
  omega

theorem normalizedIdOf_tableToJs {t : BossTable} (hid : t.id ≠ "") (i : ℕ) (now : ℤ) :
    normalizedIdOf (tableToJs t) i now = t.id := by
  have hq : getProp (tableToJs t) "id" = some (JsValue.str t.id) := rfl
  unfold normalizedIdOf
  simp only [hq]
  rw [if_pos (String.length_pos_of_ne hid)]

/-- Core round-trip property: normalizing the JSON image of a
well-formed table with nonempty id and non-blank bossName returns the
table itself and emits no warnings. -/
theorem normalizeTable_tableToJs {t : BossTable} (hid : t.id ≠ "")
    (hboss : (jsTrim t.bossName).length ≠ 0) (hwf : WFTable t) (i : ℕ) (now : ℤ) :
    normalizeTable (tableToJs t) i now = (some t, []) := by
  unfold normalizeTable
  have hobj : isObject (tableToJs t) = true := rfl
  rw [if_pos hobj]
  have hb : getProp (tableToJs t) "bossName" = some (JsValue.str t.bossName) := rfl
  simp only [hb]
  rw [if_neg hboss]
  have hcr : toEpoch (getProp (tableToJs t) "createdAt") = some t.createdAt := rfl
  rw [normalizedIdOf_tableToJs hid, normalizedCountOf_tableToJs hwf,
    rebuiltChannelsOf_tableToJs hwf, clampWarningsOf_tableToJs hwf,
    rebuildWarningsOf_tableToJs hwf, hcr]
  rfl

/-- C4: normalization is idempotent: any table in the image of
normalizeTable, fed back through normalizeTable (as its JSON object
value), is returned unchanged with no warnings. -/
theorem c4_normalize_idempotent (v : JsValue) (i : ℕ) (now : ℤ) (t : BossTable)
    (ws : List String) (h : normalizeTable v i now = (some t, ws)) (j : ℕ) (now2 : ℤ) :
    normalizeTable (tableToJs t) j now2 = (some t, []) := by
  have hwf := normalizeTable_WFTable h
  obtain ⟨hobj, b, hb, hbne, rfl, rfl⟩ := normalizeTable_some_inv h
  exact normalizeTable_tableToJs (normalizedIdOf_ne_empty v i now) hbne hwf j now2

/-- Witness for C4 at the concrete raw table c9Raw. -/
theorem c4_witness : normalizeTable (tableToJs c9OutTable) 3 99 = (some c9OutTable, []) :=
  c4_normalize_idempotent c9Raw 0 0 c9OutTable c9OutWs (by decide) 3 99

theorem normalizeAllFrom_tableToJs {ts : List BossTable}
    (h : ∀ t ∈ ts, t.id ≠ "" ∧ (jsTrim t.bossName).length ≠ 0 ∧ WFTable t) :
    ∀ (i : ℕ) (now : ℤ), normalizeAllFrom now i (ts.map tableToJs) =
      ts.map (fun t => (some t, ([] : List String))) := by
  induction ts with
  | nil => intro i now; rfl
  | cons a tl ih =>
    intro i now
    have ha := h a (List.mem_cons_self a tl)
    rw [List.map_cons, List.map_cons]
    show (normalizeTable (tableToJs a) i now) ::
      normalizeAllFrom now (i + 1) (tl.map tableToJs) = _
    rw [normalizeTable_tableToJs ha.1 ha.2.1 ha.2.2,
      ih (fun t ht => h t (List.mem_cons_of_mem a ht))]

/-- C2 (amended): exporting then importing a collection of well-formed
tables (nonempty id, bossName non-blank after trimming, dense channels
labelled 1..channelsCount with channelsCount in [1, 50]) recovers the
collection structurally unchanged. -/
theorem c2_roundtrip_amended (tables : List BossTable)
    (h : ∀ t ∈ tables, t.id ≠ "" ∧ (jsTrim t.bossName).length ≠ 0 ∧ WFTable t)
    (now now2 : ℤ) (appTimeZone : String) :
    (importStateParsed (exportStateJs tables now appTimeZone) appTimeZone now2).map
      (fun r => r.payload.tables) = .ok tables := by
  unfold importStateParsed
  have hobj : isObject (exportStateJs tables now appTimeZone) = true := rfl
  rw [if_pos hobj]
  have hver : versionOk (exportStateJs tables now appTimeZone) = true := rfl
  rw [if_pos hver]
  have htab : getProp (exportStateJs tables now appTimeZone) "tables" =
      some (JsValue.arr (tables.map tableToJs)) := rfl
  simp only [htab]
  simp only [Except.map]
  rw [normalizeAllFrom_tableToJs h]
  rw [List.filterMap_map]
  congr 1
  exact filterMap_eq_self_of_some (fun a _ => rfl)

/-- Helper for deciding equality of Except values. -/
def exceptToSum {e a : Type} : Except e a → Sum e a
  | .error x => .inl x
  | .ok x => .inr x

instance {e a : Type} [DecidableEq e] [DecidableEq a] : DecidableEq (Except e a) :=
  fun x y =>
    decidable_of_iff (exceptToSum x = exceptToSum y) (by
      cases x <;> cases y <;> simp [exceptToSum])

/-- Table with a blank (but non-empty) bossName, otherwise well
formed. -/
def c2BadTable : BossTable :=
  { id := "a", bossName := " ", channelsCount := 1, channels := [emptyChannel 1],
    createdAt := 0 }

/-- Counterexample to C2 as stated: a table whose bossName is the
non-empty string consisting of one space is dropped by the round trip
(normalizeTable rejects boss names blank after trimming), so the
recovered collection is empty. -/
theorem c2_counterexample :
    c2BadTable.id ≠ "" ∧ c2BadTable.bossName ≠ "" ∧ WFTable c2BadTable ∧
    (importStateParsed (exportStateJs [c2BadTable] 0 "UTC") "UTC" 0).map
      (fun r => r.payload.tables) ≠ .ok [c2BadTable] := by
  decide

/-- Well-formed table used to witness C2. -/
def c2GoodTable : BossTable :=
  { id := "a", bossName := "B", channelsCount := 2,
    channels := [emptyChannel 1, ⟨2, some 3, none, some 4⟩], createdAt := 12 }

/-- Witness for C2 at a concrete well-formed singleton collection. -/
theorem c2_witness :
    (importStateParsed (exportStateJs [c2GoodTable] 5 "UTC") "UTC" 9).map
      (fun r => r.payload.tables) = .ok [c2GoodTable] :=
  c2_roundtrip_amended [c2GoodTable] (by decide) 5 9 "UTC"

/-! Merge-engine lemmas. -/

theorem mapGet_getD_channel (cs : List ChannelTimer) (n : ℤ) :
    ((mapGetChannel cs n).getD (emptyChannel n)).channel = n := by
  cases h : mapGetChannel cs n with
  | none => rfl
  | some c => exact (mapGetChannel_some h).1

theorem mem_updateFirst {p : α → Bool} {f : α → α} :
    ∀ {l : List α} {x : α}, x ∈ updateFirst p f l →
      x ∈ l ∨ ∃ a ∈ l, p a = true ∧ x = f a := by
  intro l
  induction l with
  | nil => intro x hx; cases hx
  | cons a tl ih =>
    intro x hx
    unfold updateFirst at hx
    split at hx
    case isTrue hpa =>
      rcases List.mem_cons.mp hx with rfl | htl
      · exact Or.inr ⟨a, List.mem_cons_self a tl, hpa, rfl⟩
      · exact Or.inl (List.mem_cons_of_mem a htl)
    case isFalse hpa =>
      rcases List.mem_cons.mp hx with rfl | htl
      · exact Or.inl (List.mem_cons_self x tl)
      · rcases ih htl with h | ⟨b, hb, hpb, hxb⟩
        · exact Or.inl (List.mem_cons_of_mem a h)
        · exact Or.inr ⟨b, List.mem_cons_of_mem a hb, hpb, hxb⟩

theorem updateFirst_eq_self {p : α → Bool} {f : α → α} :
    ∀ {l : List α}, (∀ a ∈ l, p a = true → f a = a) → updateFirst p f l = l := by
  intro l
  induction l with
  | nil => intro _; rfl
  | cons a tl ih =>
    intro h
    unfold updateFirst
    split
    case isTrue hpa => rw [h a (List.mem_cons_self a tl) hpa]
    case isFalse => rw [ih (fun x hx => h x (List.mem_cons_of_mem a hx))]

theorem updateFirst_map_eq {α β : Type} {p : α → Bool} {f : α → α} {g : α → β}
    (hpre : ∀ a, p a = true → g (f a) = g a) :
    ∀ (l : List α), (updateFirst p f l).map g = l.map g := by
  intro l
  induction l with
  | nil => rfl
  | cons a tl ih =>
    unfold updateFirst
    split
    case isTrue hpa => simp [hpre a hpa]
    case isFalse => simp [ih]

theorem updateLast_map_eq {α β : Type} {p : α → Bool} {f : α → α} {g : α → β}
    (hpre : ∀ a, p a = true → g (f a) = g a) (l : List α) :
    (updateLast p f l).map g = l.map g := by
  unfold updateLast
  rw [List.map_reverse, updateFirst_map_eq hpre, ← List.map_reverse, List.reverse_reverse]

theorem mem_updateLast {p : α → Bool} {f : α → α} {l : List α} {x : α}
    (hx : x ∈ updateLast p f l) : x ∈ l ∨ ∃ a ∈ l, p a = true ∧ x = f a := by
  unfold updateLast at hx
  rcases mem_updateFirst (List.mem_reverse.mp hx) with h | ⟨a, ha, hpa, hxa⟩
  · exact Or.inl (List.mem_reverse.mp h)
  · exact Or.inr ⟨a, List.mem_reverse.mp ha, hpa, hxa⟩

theorem ensureUniqueIdGo_spec {used : List String} :
    ∀ {gen uid used2 gen2}, ensureUniqueIdGo used gen = some (uid, used2, gen2) →
      uid ∉ used ∧ used2 = uid :: used := by
  intro gen
  induction gen with
  | nil => intro uid used2 gen2 h; cases h
  | cons g gs ih =>
    intro uid used2 gen2 h
    unfold ensureUniqueIdGo at h
    split at h
    · exact ih h
    case isFalse hng =>
      injection h with h1
      injection h1 with h2 h3
      injection h3 with h4 h5
      subst h2
      subst h4
      exact ⟨hng, rfl⟩

theorem ensureUniqueId_spec {used : List String} {pref : String} {gen : List String}
    {uid : String} {used2 gen2 : List String}
    (h : ensureUniqueId used pref gen = some (uid, used2, gen2)) :
    uid ∉ used ∧ used2 = uid :: used := by
  unfold ensureUniqueId at h
  split at h
  · exact ensureUniqueIdGo_spec h
  case isFalse hnp =>
    injection h with h1
    injection h1 with h2 h3
    injection h3 with h4 h5
    subst h2
    subst h4
    exact ⟨hnp, rfl⟩

theorem emptyChannel_channel (n : ℤ) : (emptyChannel n).channel = n := rfl

theorem mergeChannelList_channels_map (A B : BossTable) :
    ∀ (ns : List ℤ) (cs : List MergeConflict) (ds : List (String × ConflictChoice)),
      (mergeChannelList A B ns cs ds).1.map (fun c => c.channel) = ns := by
  intro ns
  induction ns with
  | nil => intro cs ds; rfl
  | cons n tl ih =>
    intro cs ds
    unfold mergeChannelList
    dsimp only
    split
    · simp [cloneChannel_eq, mapGet_getD_channel, ih]
    · split
      · simp [cloneChannel_eq, mapGet_getD_channel, ih]
      · split
        · simp [emptyChannel_channel, ih]
        · split
          · simp [cloneChannel_eq, mapGet_getD_channel, ih]
          · simp [cloneChannel_eq, mapGet_getD_channel, ih]

theorem channelNumbers_eq_labels (c : ℤ) : channelNumbers c = channelLabels c.toNat := rfl

theorem buildMergePreviewGo_WF :
    ∀ (ts merged : List BossTable) (cs : List MergeConflict)
      (ds : List (String × ConflictChoice)) (used gen : List String)
      (out : List BossTable × List MergeConflict × List (String × ConflictChoice)),
      (∀ t ∈ merged, WFTable t) → (∀ t ∈ ts, WFTable t) →
      buildMergePreviewGo ts merged cs ds used gen = some out →
      ∀ t ∈ out.1, WFTable t := by
  intro ts
  induction ts with
  | nil =>
    intro merged cs ds used gen out hm _ h
    injection h with h1
    subst h1
    exact hm
  | cons t tl ih =>
    intro merged cs ds used gen out hm hts h
    have hwt : WFTable t := hts t (List.mem_cons_self t tl)
    have htl : ∀ x ∈ tl, WFTable x := fun x hx => hts x (List.mem_cons_of_mem t hx)
    unfold buildMergePreviewGo at h
    split at h
    case h_1 hfind =>
      split at h
      · cases h
      case h_2 uid used2 gen2 heu =>
        refine ih _ _ _ _ _ _ ?_ htl h
        intro x hx
        rcases List.mem_append.mp hx with h2 | h2
        · exact hm x h2
        · have hxeq : x = { t with id := uid } := by simpa using h2
          subst hxeq
          exact ⟨hwt.1, hwt.2.1, hwt.2.2⟩
    case h_2 existing hfind =>
      refine ih _ _ _ _ _ _ ?_ htl h
      intro x hx
      rcases mem_updateFirst hx with h2 | ⟨a, ha, hpa, hxa⟩
      · exact hm x h2
      · subst hxa
        refine ⟨one_le_clampChannelsCount _, clampChannelsCount_le _, ?_⟩
        show ((mergeChannelList existing t _ cs ds).1.map (fun c => c.channel)) = _
        rw [mergeChannelList_channels_map]
        rw [channelNumbers_eq_labels]

/-- C3's invariant for one table, as the claim lists it. -/
def TableInvariant (t : BossTable) : Prop :=
  t.channels.length = t.channelsCount.toNat ∧
    t.channels.map (fun c => c.channel) = channelLabels t.channelsCount.toNat ∧
    1 ≤ t.channelsCount ∧ t.channelsCount ≤ 50

instance (t : BossTable) : Decidable (TableInvariant t) := by
  unfold TableInvariant; infer_instance

theorem WFTable.invariant {t : BossTable} (h : WFTable t) : TableInvariant t :=
  ⟨h.length_channels, h.2.2, h.1, h.2.1⟩

theorem TableInvariant.wf {t : BossTable} (h : TableInvariant t) : WFTable t :=
  ⟨h.2.2.1, h.2.2.2, h.2.1⟩

theorem applyConflict_WF {choices : List (String × ConflictChoice)}
    {result : List BossTable} {conflict : MergeConflict}
    (h : ∀ t ∈ result, WFTable t)
    (hc : conflict.mine.channel = conflict.channel ∧
      conflict.theirs.channel = conflict.channel) :
    ∀ t ∈ applyConflict choices result conflict, WFTable t := by
  intro t ht
  unfold applyConflict at ht
  rcases mem_updateLast ht with h2 | ⟨a, ha, hpa, hta⟩
  · exact h t h2
  · subst hta
    have hwa := h a ha
    refine ⟨hwa.1, hwa.2.1, ?_⟩
    show (updateFirst _ _ a.channels).map (fun c => c.channel) = _
    rw [updateFirst_map_eq]
    · exact hwa.2.2
    · intro ch hch
      have hcd : ch.channel = conflict.channel := by simpa using hch
      show (if _ = ConflictChoice.theirs then cloneChannel conflict.theirs
        else cloneChannel conflict.mine).channel = ch.channel
      rw [hcd]
      split
      · rw [cloneChannel_eq, hc.2]
      · rw [cloneChannel_eq, hc.1]

theorem foldl_applyConflict_WF {choices : List (String × ConflictChoice)} :
    ∀ (cs : List MergeConflict) (acc : List BossTable),
      (∀ t ∈ acc, WFTable t) →
      (∀ c ∈ cs, c.mine.channel = c.channel ∧ c.theirs.channel = c.channel) →
      ∀ t ∈ cs.foldl (applyConflict choices) acc, WFTable t := by
  intro cs
  induction cs with
  | nil => intro acc hacc _ t ht; exact hacc t ht
  | cons c tl ih =>
    intro acc hacc hcs t ht
    refine ih _ ?_ (fun x hx => hcs x (List.mem_cons_of_mem c hx)) t ht
    exact applyConflict_WF hacc (hcs c (List.mem_cons_self c tl))

/-- C3 (amended): every table produced by normalizeTable satisfies the
invariant; every table in a merge preview built from well-formed inputs
satisfies it; and applyMergeChoices preserves it provided the preview's
conflicts carry channel values consistent with their channel field (as
previews built by buildMergePreview do) - without that consistency a
hand-crafted preview can break the invariant, see the counterexample. -/
theorem c3_table_invariant :
    (∀ (v : JsValue) (i : ℕ) (now : ℤ) (t : BossTable) (ws : List String),
      normalizeTable v i now = (some t, ws) → TableInvariant t) ∧
    (∀ (existingTables importedTables : List BossTable) (gen : List String)
      (p : MergePreview),
      (∀ t ∈ existingTables, WFTable t) → (∀ t ∈ importedTables, WFTable t) →
      buildMergePreview existingTables importedTables gen = some p →
      ∀ t ∈ p.mergedTables, TableInvariant t) ∧
    (∀ (preview : MergePreview) (choices : List (String × ConflictChoice)),
      (∀ t ∈ preview.mergedTables, WFTable t) →
      (∀ c ∈ preview.conflicts, c.mine.channel = c.channel ∧
        c.theirs.channel = c.channel) →
      ∀ t ∈ applyMergeChoices preview choices, TableInvariant t) := by
  refine ⟨?_, ?_, ?_⟩
  · intro v i now t ws h
    exact (normalizeTable_WFTable h).invariant
  · intro existingTables importedTables gen p hex him h t ht
    unfold buildMergePreview at h
    rw [map_cloneTable, map_cloneTable] at h
    dsimp only at h
    split at h
    · cases h
    case h_2 m cs ds hgo =>
      injection h with h1
      subst h1
      exact (buildMergePreviewGo_WF importedTables existingTables [] [] _ gen
        (m, cs, ds) hex him hgo t ht).invariant
  · intro preview choices hm hcs t ht
    unfold applyMergeChoices at ht
    rw [map_cloneTable] at ht
    exact (foldl_applyConflict_WF preview.conflicts preview.mergedTables hm hcs t ht).invariant

/-- Well-formed single-channel table used in the C3 counterexample. -/
def c3BadTable0 : BossTable := ⟨"a", "b", 1, [emptyChannel 1], 0⟩

/-- The table the C3 counterexample produces, violating the labelling
invariant. -/
def c3BadOut : BossTable := ⟨"a", "b", 1, [⟨99, some 1, none, none⟩], 0⟩

/-- Hand-crafted preview whose conflict carries a mine value labelled
with a different channel number than the conflict's channel field. -/
def c3BadPreview : MergePreview :=
  ⟨[c3BadTable0], [⟨"x", "b", "a", 1, ⟨99, some 1, none, none⟩, emptyChannel 1⟩], []⟩

/-- Counterexample to C3 as stated: with only well-formedness of the
preview's mergedTables assumed, applyMergeChoices can output a table
violating the invariant (channel array labelled [99] for count 1). -/
theorem c3_counterexample :
    (∀ t ∈ c3BadPreview.mergedTables, WFTable t) ∧
    applyMergeChoices c3BadPreview [] = [c3BadOut] ∧
    ¬ TableInvariant c3BadOut := by
  refine ⟨by decide, by decide, by decide⟩

/-- Witness for C3 at the concrete raw table c9Raw. -/
theorem c3_witness : TableInvariant c9OutTable :=
  c3_table_invariant.1 c9Raw 0 0 c9OutTable c9OutWs (by decide)

theorem updateFirst_map_id {p : BossTable → Bool} {mc : ℤ} {nc : List ChannelTimer}
    (l : List BossTable) :
    (updateFirst p (fun ex => { ex with channelsCount := mc, channels := nc }) l).map
      (fun t => t.id) = l.map (fun t => t.id) :=
  @updateFirst_map_eq BossTable String p
    (fun ex => { ex with channelsCount := mc, channels := nc })
    (fun t => t.id) (fun _ _ => rfl) l

theorem buildMergePreviewGo_nodup_ids :
    ∀ (ts merged : List BossTable) (cs : List MergeConflict)
      (ds : List (String × ConflictChoice)) (used gen : List String)
      (out : List BossTable × List MergeConflict × List (String × ConflictChoice)),
      (merged.map (fun t => t.id)).Nodup →
      (∀ x ∈ merged.map (fun t => t.id), x ∈ used) →
      buildMergePreviewGo ts merged cs ds used gen = some out →
      (out.1.map (fun t => t.id)).Nodup := by
  intro ts
  induction ts with
  | nil =>
    intro merged cs ds used gen out hnd _ h
    injection h with h1
    subst h1
    exact hnd
  | cons t tl ih =>
    intro merged cs ds used gen out hnd hsub h
    unfold buildMergePreviewGo at h
    split at h
    case h_1 hfind =>
      split at h
      · cases h
      case h_2 uid used2 gen2 heu =>
        obtain ⟨hnotin, hused2⟩ := ensureUniqueId_spec heu
        refine ih _ _ _ _ _ _ ?_ ?_ h
        · rw [List.map_append]
          rw [List.nodup_append]
          refine ⟨hnd, by simp, ?_⟩
          intro x hx hx2
          have hxu : x = uid := by simpa using hx2
          subst hxu
          exact hnotin (hsub x hx)
        · intro x hx
          rw [hused2]
          rw [List.map_append] at hx
          rcases List.mem_append.mp hx with h2 | h2
          · exact List.mem_cons_of_mem uid (hsub x h2)
          · have hxu : x = uid := by simpa using h2
            subst hxu
            exact List.mem_cons_self _ _
    case h_2 existing hfind =>
      refine ih _ _ _ _ _ _ ?_ ?_ h
      · rw [updateFirst_map_id]
        exact hnd
      · intro x hx
        rw [updateFirst_map_id] at hx
        exact hsub x hx

/-- C5: if the existing (local) tables have pairwise-distinct ids, then
for every imported collection (including duplicate supplied ids or ids
colliding with existing ones) a successfully built merge preview has
pairwise-distinct mergedTables ids. -/
theorem c5_merged_ids_nodup (existingTables importedTables : List BossTable)
    (gen : List String) (p : MergePreview)
    (hnd : (existingTables.map (fun t => t.id)).Nodup)
    (h : buildMergePreview existingTables importedTables gen = some p) :
    (p.mergedTables.map (fun t => t.id)).Nodup := by
  unfold buildMergePreview at h
  rw [map_cloneTable, map_cloneTable] at h
  dsimp only at h
  split at h
  · cases h
  case h_2 m cs ds hgo =>
    injection h with h1
    subst h1
    exact buildMergePreviewGo_nodup_ids importedTables existingTables [] [] _ gen
      (m, cs, ds) hnd (fun x hx => hx) hgo

/-- Existing table for the C5 witness. -/
def c5A : BossTable := ⟨"a", "P", 1, [emptyChannel 1], 0⟩

/-- First imported table for the C5 witness (id collides with c5A). -/
def c5B : BossTable := ⟨"a", "Q", 1, [emptyChannel 1], 0⟩

/-- Second imported table for the C5 witness (same supplied id). -/
def c5C : BossTable := ⟨"a", "R", 1, [emptyChannel 1], 0⟩

/-- Merge preview obtained in the C5 witness. -/
def c5Out : MergePreview :=
  ⟨[c5A, ⟨"g1", "Q", 1, [emptyChannel 1], 0⟩, ⟨"g2", "R", 1, [emptyChannel 1], 0⟩], [], []⟩

/-- Witness for C5: duplicate supplied ids colliding with an existing
id still yield pairwise-distinct result ids. -/
theorem c5_witness : (c5Out.mergedTables.map (fun t => t.id)).Nodup :=
  c5_merged_ids_nodup [c5A] [c5B, c5C] ["g1", "g2"] c5Out (by decide) (by decide)

/-! Self-merge lemmas for C8. -/

theorem WFTable.channel_at {t : BossTable} (h : WFTable t) {i : ℕ}
    (hi : i < t.channels.length) : t.channels[i].channel = (i : ℤ) + 1 := by
  have hi3 : i < (t.channels.map (fun d => d.channel)).length := by simpa using hi
  have heq := List.getElem_of_eq h.2.2 hi3
  rw [List.getElem_map] at heq
  rw [heq]
  simp [channelLabels]

theorem WFTable.mapGet_at {t : BossTable} (h : WFTable t) {i : ℕ}
    (hi : i < t.channels.length) :
    mapGetChannel t.channels ((i : ℤ) + 1) = some (t.channels[i]) := by
  have hm := mapGetChannel_of_nodup h.nodup_keys (List.getElem_mem hi)
  rw [h.channel_at hi] at hm
  exact hm

theorem map_getD_channels {t : BossTable} (h : WFTable t) :
    (channelNumbers t.channelsCount).map
      (fun n => (mapGetChannel t.channels n).getD (emptyChannel n)) = t.channels := by
  rw [channelNumbers_eq_labels]
  apply List.ext_getElem
  · simp [channelLabels, h.length_channels]
  · intro i h1 h2
    simp only [List.getElem_map, channelLabels, List.getElem_range]
    rw [h.mapGet_at h2]
    rfl

theorem mergeChannelList_self (T : BossTable) :
    ∀ (ns : List ℤ) (cs : List MergeConflict) (ds : List (String × ConflictChoice)),
      mergeChannelList T T ns cs ds =
        (ns.map (fun n => (mapGetChannel T.channels n).getD (emptyChannel n)), cs, ds) := by
  intro ns
  induction ns with
  | nil => intro cs ds; rfl
  | cons n tl ih =>
    intro cs ds
    unfold mergeChannelList
    dsimp only
    cases hht : hasTimer ((mapGetChannel T.channels n).getD (emptyChannel n)) with
    | false =>
      have hge : (mapGetChannel T.channels n).getD (emptyChannel n) = emptyChannel n := by
        have h2 := (hasTimer_false_iff _).mp hht
        rw [h2, mapGet_getD_channel]
      simp [hht, hge, ih]
    | true =>
      simp [hht, cloneChannel_eq, ih]

theorem find?_boss_unique {L : List BossTable} {t : BossTable}
    (hnd : (L.map (fun x => x.bossName)).Nodup) (ht : t ∈ L) :
    L.find? (fun m => m.bossName == t.bossName) = some t := by
  induction L with
  | nil => cases ht
  | cons a tl ih =>
    simp only [List.map_cons, List.nodup_cons, List.mem_map] at hnd
    rcases List.mem_cons.mp ht with rfl | htl
    · rw [List.find?_cons_of_pos _ (by simp)]
    · have hne : a.bossName ≠ t.bossName := by
        intro he
        exact hnd.1 ⟨t, htl, he.symm⟩
      rw [List.find?_cons_of_neg _ (by simpa using hne)]
      exact ih hnd.2 htl

theorem buildMergePreviewGo_self {L : List BossTable}
    (hwf : ∀ x ∈ L, WFTable x) (hnd : (L.map (fun x => x.bossName)).Nodup) :
    ∀ (ts : List BossTable), (∀ x ∈ ts, x ∈ L) →
      ∀ (cs : List MergeConflict) (ds : List (String × ConflictChoice)) (used gen : List String),
      buildMergePreviewGo ts L cs ds used gen = some (L, cs, ds) := by
  intro ts
  induction ts with
  | nil => intro _ cs ds used gen; rfl
  | cons t tl ih =>
    intro hsub cs ds used gen
    have htL : t ∈ L := hsub t (List.mem_cons_self t tl)
    have hwt := hwf t htL
    unfold buildMergePreviewGo
    rw [find?_boss_unique hnd htL]
    dsimp only
    have hmc : clampChannelsCount ((max t.channelsCount t.channelsCount : ℤ) : ℚ) =
        t.channelsCount := by
      rw [max_self]
      exact clampChannelsCount_eq_self hwt.1 hwt.2.1
    rw [hmc, mergeChannelList_self, map_getD_channels hwt]
    dsimp only
    have hupd : updateFirst (fun m => m.bossName == t.bossName)
        (fun ex => { ex with channelsCount := t.channelsCount, channels := t.channels })
        L = L := by
      apply updateFirst_eq_self
      intro a ha hpa
      have hat : a = t := by
        refine List.inj_on_of_nodup_map hnd ha htL ?_
        simpa using hpa
      subst hat
      rfl
    rw [hupd]
    exact ih (fun x hx => hsub x (List.mem_cons_of_mem t hx)) cs ds used gen

/-- C8 (amended): merging a well-formed collection with pairwise
distinct boss names against an identical copy of itself yields zero
conflicts, an empty defaultChoices map, and mergedTables structurally
equal to the input (duplicate boss names break this, see the
counterexample, because every imported table merges into the first
local table carrying its boss name). -/
theorem c8_self_merge_amended (L : List BossTable)
    (hwf : ∀ t ∈ L, WFTable t) (hnd : (L.map (fun t => t.bossName)).Nodup)
    (gen : List String) :
    buildMergePreview L L gen = some ⟨L, [], []⟩ := by
  unfold buildMergePreview
  rw [map_cloneTable]
  dsimp only
  rw [buildMergePreviewGo_self hwf hnd L (fun x hx => hx) [] []
    (L.map (fun table => table.id)) gen]

/-- First table of the C8 counterexample collection. -/
def c8T1 : BossTable := ⟨"a", "X", 1, [⟨1, some 100, none, none⟩], 0⟩

/-- Second table of the C8 counterexample collection, same bossName. -/
def c8T2 : BossTable := ⟨"b", "X", 1, [⟨1, some 200, none, none⟩], 0⟩

/-- Counterexample to C8 as stated: a well-formed collection containing
two tables with the same bossName, merged against itself, produces a
conflict (the second imported copy merges into the first local table
with that name). -/
theorem c8_counterexample :
    (∀ t ∈ [c8T1, c8T2], WFTable t) ∧
    (List.map (fun t => t.id) [c8T1, c8T2]).Nodup ∧
    (buildMergePreview [c8T1, c8T2] [c8T1, c8T2] []).map
      (fun p => p.conflicts.length) = some 1 := by
  refine ⟨by decide, by decide, by decide⟩

/-- Witness for C8 on a concrete well-formed singleton collection. -/
theorem c8_witness :
    buildMergePreview [c2GoodTable] [c2GoodTable] [] = some ⟨[c2GoodTable], [], []⟩ :=
  c8_self_merge_amended [c2GoodTable] (by decide) (by decide) []

/-! Lemmas for C10: the timezone warning is the only warning starting
with the letter B, so its presence in the warning list is exactly its
emission by the timezone check. -/

theorem data_head_append (s t : String) (c : Char) (rest : List Char)
    (h : s.data = c :: rest) : ∃ r2, (s ++ t).data = c :: r2 :=
  ⟨rest ++ t.data, by rw [String.data_append, h]; rfl⟩

theorem tzWarningMsg_head (x y : String) : ∃ r, (tzWarningMsg x y).data = 'B' :: r := by
  unfold tzWarningMsg
  obtain ⟨r1, h1⟩ := data_head_append "Backup timezone is \"" x 'B' _ rfl
  obtain ⟨r2, h2⟩ := data_head_append _ "\", your timezone is \"" 'B' _ h1
  obtain ⟨r3, h3⟩ := data_head_append _ y 'B' _ h2
  exact data_head_append _ "\"." 'B' _ h3

theorem skippedNotObjectMsg_head (i : ℕ) :
    ∃ r, (skippedNotObjectMsg i).data = 'S' :: r := by
  unfold skippedNotObjectMsg
  obtain ⟨r1, h1⟩ := data_head_append "Skipped table #" (toString (i + 1)) 'S' _ rfl
  exact data_head_append _ ": not an object." 'S' _ h1

theorem skippedMissingBossMsg_head (i : ℕ) :
    ∃ r, (skippedMissingBossMsg i).data = 'S' :: r := by
  unfold skippedMissingBossMsg
  obtain ⟨r1, h1⟩ := data_head_append "Skipped table #" (toString (i + 1)) 'S' _ rfl
  exact data_head_append _ ": missing bossName." 'S' _ h1

theorem clampedMsg_head (b : String) (k : ℤ) : ∃ r, (clampedMsg b k).data = 'T' :: r := by
  unfold clampedMsg
  obtain ⟨r1, h1⟩ := data_head_append "Table \"" b 'T' _ rfl
  obtain ⟨r2, h2⟩ := data_head_append _ "\": channelsCount was clamped to " 'T' _ h1
  obtain ⟨r3, h3⟩ := data_head_append _ (toString k) 'T' _ h2
  exact data_head_append _ "." 'T' _ h3

theorem rebuiltMsg_head (b : String) (m : ℕ) (k : ℤ) :
    ∃ r, (rebuiltMsg b m k).data = 'T' :: r := by
  unfold rebuiltMsg
  obtain ⟨r1, h1⟩ := data_head_append "Table \"" b 'T' _ rfl
  obtain ⟨r2, h2⟩ := data_head_append _ "\": channels rebuilt (" 'T' _ h1
  obtain ⟨r3, h3⟩ := data_head_append _ (toString m) 'T' _ h2
  obtain ⟨r4, h4⟩ := data_head_append _ " -> " 'T' _ h3
  obtain ⟨r5, h5⟩ := data_head_append _ (toString k) 'T' _ h4
  exact data_head_append _ ") to match count." 'T' _ h5

theorem ne_of_data_heads {s t : String} {c d : Char} {r1 r2 : List Char}
    (hs : s.data = c :: r1) (ht : t.data = d :: r2) (hcd : c ≠ d) : s ≠ t := by
  intro he
  rw [he, ht] at hs
  injection hs with h1 _
  exact hcd h1.symm

theorem normalizeTable_warnings_head {v : JsValue} {i : ℕ} {now : ℤ} :
    ∀ w ∈ (normalizeTable v i now).2,
      (∃ r, w.data = 'T' :: r) ∨ (∃ r, w.data = 'S' :: r) := by
  intro w hw
  unfold normalizeTable at hw
  split at hw
  · split at hw
    case h_1 bossName hb =>
      split at hw
      · have hws := List.mem_singleton.mp hw
        subst hws
        exact Or.inr (skippedMissingBossMsg_head i)
      · simp only at hw
        rcases List.mem_append.mp hw with h2 | h2
        · unfold clampWarningsOf at h2
          split at h2
          · split at h2
            · cases h2
            · have hws := List.mem_singleton.mp h2
              subst hws
              exact Or.inl (clampedMsg_head _ _)
          · cases h2
        · unfold rebuildWarningsOf at h2
          split at h2
          · cases h2
          · have hws := List.mem_singleton.mp h2
            subst hws
            exact Or.inl (rebuiltMsg_head _ _ _)
    case h_2 =>
      have hws := List.mem_singleton.mp hw
      subst hws
      exact Or.inr (skippedMissingBossMsg_head i)
  · have hws := List.mem_singleton.mp hw
    subst hws
    exact Or.inr (skippedNotObjectMsg_head i)

theorem normalizeAllFrom_warnings_head {now : ℤ} :
    ∀ (ts : List JsValue) (i : ℕ) (w : String),
      w ∈ ((normalizeAllFrom now i ts).map (fun p => p.2)).flatten →
      (∃ r, w.data = 'T' :: r) ∨ (∃ r, w.data = 'S' :: r) := by
  intro ts
  induction ts with
  | nil => intro i w hw; cases hw
  | cons t tl ih =>
    intro i w hw
    unfold normalizeAllFrom at hw
    rw [List.map_cons, List.flatten_cons] at hw
    rcases List.mem_append.mp hw with h2 | h2
    · exact normalizeTable_warnings_head w h2
    · exact ih (i + 1) w h2

theorem timezoneOk_iff (parsed : JsValue) (app : String) :
    timezoneOk parsed app = true ↔ getProp parsed "timezone" = some (JsValue.str app) := by
  unfold timezoneOk
  split
  case h_1 x s hs =>
    simp only [decide_eq_true_eq]
    constructor
    · intro h
      rw [hs, h]
    · intro h
      rw [hs] at h
      simpa using h
  case h_2 x hno =>
    constructor
    · intro h
      cases h
    · intro h
      exact absurd h (fun he => hno app he)

/-- C10: for every accepted import, the timezone-mismatch warning is
emitted exactly when the raw timezone value is not strictly equal (as a
string) to the host timezone; in particular an absent or non-string
timezone always warns even though the returned payload timezone is
defaulted to the host timezone (so the warning is keyed on the raw
value, not on the defaulted payload value). -/
theorem c10_timezone_warning (parsed : JsValue) (app : String) (now : ℤ)
    (r : ImportResult) (h : importStateParsed parsed app now = .ok r) :
    (tzWarningMsg (jsStringOfOpt (getProp parsed "timezone")) app ∈ r.warnings ↔
      getProp parsed "timezone" ≠ some (JsValue.str app)) ∧
    ((∀ s, getProp parsed "timezone" ≠ some (JsValue.str s)) →
      r.payload.timezone = app ∧
        tzWarningMsg (jsStringOfOpt (getProp parsed "timezone")) app ∈ r.warnings) := by
  unfold importStateParsed at h
  split at h
  case isFalse => cases h
  case isTrue hobj =>
  split at h
  case isFalse => cases h
  case isTrue hver =>
  split at h
  case h_2 => cases h
  case h_1 x rawTables htab =>
  dsimp only at h
  injection h with h1
  subst h1
  dsimp only
  constructor
  · by_cases htz : timezoneOk parsed app = true
    · have hget := (timezoneOk_iff parsed app).mp htz
      rw [if_pos htz]
      constructor
      · intro hmem
        exfalso
        rw [List.nil_append] at hmem
        obtain ⟨rB, hB⟩ := tzWarningMsg_head (jsStringOfOpt (getProp parsed "timezone")) app
        rcases normalizeAllFrom_warnings_head rawTables 0 _ hmem with ⟨rT, hT⟩ | ⟨rS, hS⟩
        · exact ne_of_data_heads hB hT (by decide) rfl
        · exact ne_of_data_heads hB hS (by decide) rfl
      · intro hne
        exact absurd hget hne
    · have hget : getProp parsed "timezone" ≠ some (JsValue.str app) :=
        fun he => htz ((timezoneOk_iff parsed app).mpr he)
      rw [if_neg htz]
      constructor
      · intro _
        exact hget
      · intro _
        exact List.mem_append_left _ (List.mem_singleton.mpr rfl)
  · intro hall
    have htz : timezoneOk parsed app = false := by
      cases h2 : timezoneOk parsed app with
      | true => exact absurd ((timezoneOk_iff parsed app).mp h2) (hall app)
      | false => rfl
    refine ⟨?_, ?_⟩
    · show (match getProp parsed "timezone" with
        | some (JsValue.str s) => s
        | _ => app) = app
      split
      case h_1 s hs => exact absurd hs (hall s)
      case h_2 => rfl
    · rw [if_neg (by simp [htz])]
      exact List.mem_append_left _ (List.mem_singleton.mpr rfl)

/-- Concrete accepted envelope with no timezone field, for the C10
witness. -/
def c10Parsed : JsValue :=
  .obj [("version", JsValue.num (JsNumber.finite 1)), ("tables", JsValue.arr [])]

/-- Import result obtained from c10Parsed. -/
def c10Out : ImportResult :=
  ⟨⟨1, STORAGE_VERSION, 7, "UTC", []⟩, [tzWarningMsg "undefined" "UTC"]⟩

/-- Witness for C10: an absent timezone warns while the payload
timezone is defaulted to the host zone. -/
theorem c10_witness :
    c10Out.payload.timezone = "UTC" ∧
      tzWarningMsg (jsStringOfOpt (getProp c10Parsed "timezone")) "UTC" ∈ c10Out.warnings :=
  (c10_timezone_warning c10Parsed "UTC" 7 c10Out (by decide)).2
    (by intro s hs; simp [getProp, lookupField, c10Parsed] at hs)

/-! Lemmas and setup for C7: the one-conflict merge scenario. -/

/-- Channels 1..count, all empty except channel 3 which carries a
single killedAt timestamp. -/
def spikeChannels (count : ℤ) (ts : ℚ) : List ChannelTimer :=
  (channelNumbers count).map (fun n =>
    if n = 3 then ⟨3, some ts, none, none⟩ else emptyChannel n)

/-- The C7 table shape: boss table whose only timer is killedAt on
channel 3. -/
def singleKillTable (id boss : String) (count : ℤ) (ts created : ℚ) : BossTable :=
  ⟨id, boss, count, spikeChannels count ts, created⟩

theorem spikeChannels_map (count : ℤ) (ts : ℚ) :
    (spikeChannels count ts).map (fun c => c.channel) = channelNumbers count := by
  unfold spikeChannels
  rw [List.map_map]
  have h2 : ((fun (c : ChannelTimer) => c.channel) ∘ fun n =>
      if n = 3 then (⟨3, some ts, none, none⟩ : ChannelTimer) else emptyChannel n) =
      fun n => n := by
    funext n
    dsimp
    split
    case isTrue hn => exact hn.symm
    case isFalse => rfl
  rw [h2]
  simp

theorem singleKillTable_WF {id boss : String} {count : ℤ} {ts created : ℚ}
    (h1 : 1 ≤ count) (h50 : count ≤ 50) :
    WFTable (singleKillTable id boss count ts created) := by
  refine ⟨h1, h50, ?_⟩
  show (spikeChannels count ts).map (fun c => c.channel) = _
  rw [spikeChannels_map, channelNumbers_eq_labels]
  rfl

theorem spikeChannels_nodup_keys (count : ℤ) (ts : ℚ) :
    ((spikeChannels count ts).map (fun c => c.channel)).Nodup := by
  rw [spikeChannels_map, channelNumbers_eq_labels]
  exact channelLabels_nodup _

theorem mem_channelNumbers {count n : ℤ} :
    n ∈ channelNumbers count ↔ 1 ≤ n ∧ n ≤ (count.toNat : ℤ) := by
  rw [channelNumbers_eq_labels]
  exact mem_channelLabels

theorem spike_mapGet_3 {count : ℤ} {ts : ℚ} (h3 : 3 ≤ count) :
    mapGetChannel (spikeChannels count ts) 3 = some ⟨3, some ts, none, none⟩ := by
  have hmem : (⟨3, some ts, none, none⟩ : ChannelTimer) ∈ spikeChannels count ts := by
    unfold spikeChannels
    refine List.mem_map.mpr ⟨3, ?_, by simp⟩
    rw [mem_channelNumbers]
    omega
  have := mapGetChannel_of_nodup (spikeChannels_nodup_keys count ts) hmem
  exact this

theorem spike_mapGet_ne {count n : ℤ} {ts : ℚ} (hn : n ≠ 3) :
    hasTimer ((mapGetChannel (spikeChannels count ts) n).getD (emptyChannel n)) = false := by
  cases hm : mapGetChannel (spikeChannels count ts) n with
  | none => rfl
  | some c =>
    obtain ⟨hcn, hcmem⟩ := mapGetChannel_some hm
    rcases List.mem_map.mp hcmem with ⟨m, hmmem, hgm⟩
    by_cases hm3 : m = 3
    · exfalso
      subst hm3
      rw [if_pos rfl] at hgm
      subst hgm
      exact hn hcn.symm
    · rw [if_neg hm3] at hgm
      subst hgm
      rfl

theorem mergeChannelList_all_empty (A B : BossTable) :
    ∀ (ns : List ℤ),
      (∀ n ∈ ns, hasTimer ((mapGetChannel A.channels n).getD (emptyChannel n)) = false ∧
        hasTimer ((mapGetChannel B.channels n).getD (emptyChannel n)) = false) →
      ∀ (cs : List MergeConflict) (ds : List (String × ConflictChoice)),
        mergeChannelList A B ns cs ds = (ns.map emptyChannel, cs, ds) := by
  intro ns
  induction ns with
  | nil => intro _ cs ds; rfl
  | cons n tl ih =>
    intro h cs ds
    have hn := h n (List.mem_cons_self n tl)
    have htl := fun x hx => h x (List.mem_cons_of_mem n hx)
    unfold mergeChannelList
    dsimp only
    simp [hn.1, hn.2, ih htl]

/-- One step of the per-channel merge loop: the pushed channel and the
updated conflict/defaults accumulators for a single channel number. -/
def mergeStep (A B : BossTable) (n : ℤ) (cs : List MergeConflict)
    (ds : List (String × ConflictChoice)) :
    ChannelTimer × List MergeConflict × List (String × ConflictChoice) :=
  let mine := (mapGetChannel A.channels n).getD (emptyChannel n)
  let theirs := (mapGetChannel B.channels n).getD (emptyChannel n)
  let mineHas := hasTimer mine
  let theirsHas := hasTimer theirs
  if !mineHas && theirsHas then (cloneChannel theirs, cs, ds)
  else if mineHas && !theirsHas then (cloneChannel mine, cs, ds)
  else if !mineHas && !theirsHas then (emptyChannel n, cs, ds)
  else if timerSignature mine = timerSignature theirs then (cloneChannel mine, cs, ds)
  else
    let conflictId := A.id ++ ":" ++ toString n ++ ":" ++ toString cs.length
    (cloneChannel mine,
     cs ++ [⟨conflictId, A.bossName, A.id, n, cloneChannel mine, cloneChannel theirs⟩],
     ds ++ [(conflictId, ConflictChoice.mine)])

theorem mergeChannelList_cons_eq (A B : BossTable) (n : ℤ) (ns : List ℤ)
    (cs : List MergeConflict) (ds : List (String × ConflictChoice)) :
    mergeChannelList A B (n :: ns) cs ds =
      ((mergeStep A B n cs ds).1 ::
         (mergeChannelList A B ns (mergeStep A B n cs ds).2.1
           (mergeStep A B n cs ds).2.2).1,
       (mergeChannelList A B ns (mergeStep A B n cs ds).2.1
         (mergeStep A B n cs ds).2.2).2.1,
       (mergeChannelList A B ns (mergeStep A B n cs ds).2.1
         (mergeStep A B n cs ds).2.2).2.2) := by
  rw [mergeChannelList]
  unfold mergeStep
  dsimp only
  split
  · rfl
  · split
    · rfl
    · split
      · rfl
      · split
        · rfl
        · rfl

theorem mergeChannelList_append (A B : BossTable) (ns1 : List ℤ) :
    ∀ (ns2 : List ℤ) (cs : List MergeConflict) (ds : List (String × ConflictChoice)),
      mergeChannelList A B (ns1 ++ ns2) cs ds =
        ((mergeChannelList A B ns1 cs ds).1 ++
           (mergeChannelList A B ns2 (mergeChannelList A B ns1 cs ds).2.1
             (mergeChannelList A B ns1 cs ds).2.2).1,
         (mergeChannelList A B ns2 (mergeChannelList A B ns1 cs ds).2.1
           (mergeChannelList A B ns1 cs ds).2.2).2.1,
         (mergeChannelList A B ns2 (mergeChannelList A B ns1 cs ds).2.1
           (mergeChannelList A B ns1 cs ds).2.2).2.2) := by
  induction ns1 with
  | nil => intro ns2 cs ds; rfl
  | cons n tl ih =>
    intro ns2 cs ds
    rw [List.cons_append]
    rw [mergeChannelList_cons_eq, ih]
    rw [mergeChannelList_cons_eq A B n tl cs ds]
    simp

theorem updateFirst_append_none {p : α → Bool} {f : α → α} :
    ∀ {l1 : List α} (l2 : List α), (∀ a ∈ l1, p a = false) →
      updateFirst p f (l1 ++ l2) = l1 ++ updateFirst p f l2 := by
  intro l1
  induction l1 with
  | nil => intro l2 _; rfl
  | cons a tl ih =>
    intro l2 h
    rw [List.cons_append]
    rw [updateFirst]
    rw [if_neg (by simp [h a (List.mem_cons_self a tl)])]
    rw [ih l2 (fun x hx => h x (List.mem_cons_of_mem a hx))]
    rw [List.cons_append]

theorem updateFirst_cons_pos {p : α → Bool} {f : α → α} {a : α} {l : List α}
    (h : p a = true) : updateFirst p f (a :: l) = f a :: l := by
  unfold updateFirst
  rw [if_pos h]

theorem updateLast_singleton {p : α → Bool} {f : α → α} {x : α} (h : p x = true) :
    updateLast p f [x] = [f x] := by
  unfold updateLast
  show (updateFirst p f [x]).reverse = [f x]
  rw [updateFirst_cons_pos h]
  rfl

theorem mergeStep_empty {A B : BossTable} {n : ℤ}
    (hA : hasTimer ((mapGetChannel A.channels n).getD (emptyChannel n)) = false)
    (hB : hasTimer ((mapGetChannel B.channels n).getD (emptyChannel n)) = false)
    (cs : List MergeConflict) (ds : List (String × ConflictChoice)) :
    mergeStep A B n cs ds = (emptyChannel n, cs, ds) := by
  unfold mergeStep
  dsimp only
  simp [hA, hB]

theorem channelNumbers_decomp {mc : ℤ} (h3 : 3 ≤ mc) :
    channelNumbers mc =
      [1, 2] ++ 3 :: (List.range (mc.toNat - 3)).map (fun (i : ℕ) => (i : ℤ) + 4) := by
  obtain ⟨r, hr⟩ : ∃ r, mc.toNat = 3 + r := ⟨mc.toNat - 3, by omega⟩
  unfold channelNumbers
  conv_lhs => rw [hr]
  rw [List.range_add, List.map_append, List.map_map]
  have h1 : (List.range 3).map (fun (i : ℕ) => (i : ℤ) + 1) = [1, 2, 3] := by decide
  rw [h1]
  rw [show mc.toNat - 3 = r from by omega]
  simp only [List.cons_append, List.nil_append]
  congr 1
  congr 1
  congr 1
  apply List.map_congr_left
  intro i _
  show ((3 + i : ℕ) : ℤ) + 1 = (i : ℤ) + 4
  push_cast
  ring

theorem string_concat_id3 (s : String) :
    s ++ ":" ++ toString (3 : ℤ) ++ ":" ++ toString (0 : ℕ) = s ++ ":3:0" := by
  have h1 : toString (3 : ℤ) = "3" := rfl
  have h2 : toString (0 : ℕ) = "0" := rfl
  rw [h1, h2, String.append_assoc, String.append_assoc, String.append_assoc]
  congr 1

theorem spikeChannels_decomp {mc : ℤ} (hmk : 3 ≤ mc) (ts : ℚ) :
    spikeChannels mc ts = [emptyChannel 1, emptyChannel 2] ++
      (⟨3, some ts, none, none⟩ : ChannelTimer) ::
        ((List.range (mc.toNat - 3)).map (fun (i : ℕ) => (i : ℤ) + 4)).map emptyChannel := by
  unfold spikeChannels
  rw [channelNumbers_decomp hmk]
  rw [List.map_append]
  have h12 : ([1, 2] : List ℤ).map (fun n =>
      if n = 3 then (⟨3, some ts, none, none⟩ : ChannelTimer) else emptyChannel n) =
      [emptyChannel 1, emptyChannel 2] := by
    norm_num
  rw [h12]
  rw [List.map_cons, if_pos rfl]
  congr 2
  rw [List.map_map, List.map_map]
  apply List.map_congr_left
  intro i _
  show (if ((i : ℤ) + 4) = 3 then (⟨3, some ts, none, none⟩ : ChannelTimer)
    else emptyChannel ((i : ℤ) + 4)) = emptyChannel ((i : ℤ) + 4)
  rw [if_neg (by omega)]

theorem c7_merge_channels (idL idI boss : String) (m k : ℤ) (cL cI : ℚ)
    (hm3 : 3 ≤ m) (hk3 : 3 ≤ k) :
    mergeChannelList (singleKillTable idL boss m 100 cL)
        (singleKillTable idI boss k 200 cI) (channelNumbers (max m k)) [] [] =
      (spikeChannels (max m k) 100,
       [⟨idL ++ ":3:0", boss, idL, 3, ⟨3, some 100, none, none⟩,
         ⟨3, some 200, none, none⟩⟩],
       [(idL ++ ":3:0", ConflictChoice.mine)]) := by
  have hmk : 3 ≤ max m k := le_trans hm3 (le_max_left m k)
  rw [channelNumbers_decomp hmk]
  rw [mergeChannelList_append]
  have hA1 : ∀ n ∈ ([1, 2] : List ℤ),
      hasTimer ((mapGetChannel (singleKillTable idL boss m 100 cL).channels n).getD
        (emptyChannel n)) = false ∧
      hasTimer ((mapGetChannel (singleKillTable idI boss k 200 cI).channels n).getD
        (emptyChannel n)) = false := by
    intro n hn
    have hne : n ≠ 3 := by
      rcases List.mem_cons.mp hn with rfl | hn2
      · omega
      · have : n = 2 := by simpa using hn2
        omega
    exact ⟨spike_mapGet_ne hne, spike_mapGet_ne hne⟩
  rw [mergeChannelList_all_empty _ _ [1, 2] hA1 [] []]
  dsimp only
  rw [mergeChannelList_cons_eq]
  have hstep : mergeStep (singleKillTable idL boss m 100 cL)
      (singleKillTable idI boss k 200 cI) 3 [] [] =
      ((⟨3, some 100, none, none⟩ : ChannelTimer),
       [⟨idL ++ ":3:0", boss, idL, 3, ⟨3, some 100, none, none⟩,
         ⟨3, some 200, none, none⟩⟩],
       [(idL ++ ":3:0", ConflictChoice.mine)]) := by
    unfold mergeStep
    dsimp only [singleKillTable]
    rw [spike_mapGet_3 hm3, spike_mapGet_3 hk3]
    simp only [Option.getD_some]
    rw [if_neg (by decide), if_neg (by decide), if_neg (by decide), if_neg (by decide)]
    have hid : idL ++ ":" ++ toString (3 : ℤ) ++
        ":" ++ toString (List.length ([] : List MergeConflict)) = idL ++ ":3:0" := by
      show idL ++ ":" ++ toString (3 : ℤ) ++ ":" ++ toString (0 : ℕ) = idL ++ ":3:0"
      exact string_concat_id3 idL
    rw [hid]
    simp [cloneChannel_eq]
  rw [hstep]
  dsimp only
  have hrest : ∀ n ∈ (List.range ((max m k).toNat - 3)).map (fun (i : ℕ) => (i : ℤ) + 4),
      hasTimer ((mapGetChannel (singleKillTable idL boss m 100 cL).channels n).getD
        (emptyChannel n)) = false ∧
      hasTimer ((mapGetChannel (singleKillTable idI boss k 200 cI).channels n).getD
        (emptyChannel n)) = false := by
    intro n hn
    rcases List.mem_map.mp hn with ⟨i, _, rfl⟩
    have hne : (i : ℤ) + 4 ≠ 3 := by omega
    exact ⟨spike_mapGet_ne hne, spike_mapGet_ne hne⟩
  rw [mergeChannelList_all_empty _ _ _ hrest]
  dsimp only
  rw [show List.map emptyChannel ([1, 2] : List ℤ) = [emptyChannel 1, emptyChannel 2] from rfl]
  rw [← spikeChannels_decomp hmk 100]

/-- The single conflict produced in the C7 scenario. -/
def c7Conflict (idL boss : String) : MergeConflict :=
  ⟨idL ++ ":3:0", boss, idL, 3, ⟨3, some 100, none, none⟩, ⟨3, some 200, none, none⟩⟩

/-- The preview produced in the C7 scenario. -/
def c7Preview (idL boss : String) (mc : ℤ) (cL : ℚ) : MergePreview :=
  ⟨[⟨idL, boss, mc, spikeChannels mc 100, cL⟩], [c7Conflict idL boss],
   [(idL ++ ":3:0", ConflictChoice.mine)]⟩

/-- C7: merging two single-table collections for the same boss where
only channel 3 carries a timer on each side (killedAt 100 locally,
killedAt 200 remotely) yields exactly one conflict, at channel 3, with
the defaultChoices record mapping its id to mine and the merged channel
3 holding killedAt 100; applying the choice theirs for that conflict id
yields channel 3 with killedAt 200. -/
theorem c7_single_conflict (idL idI boss : String) (m k : ℤ) (cL cI : ℚ)
    (gen : List String) (hm3 : 3 ≤ m) (hm50 : m ≤ 50) (hk3 : 3 ≤ k) (hk50 : k ≤ 50) :
    buildMergePreview [singleKillTable idL boss m 100 cL]
        [singleKillTable idI boss k 200 cI] gen =
      some (c7Preview idL boss (max m k) cL) ∧
    applyMergeChoices (c7Preview idL boss (max m k) cL)
        [(idL ++ ":3:0", ConflictChoice.theirs)] =
      [⟨idL, boss, max m k, spikeChannels (max m k) 200, cL⟩] := by
  constructor
  · unfold buildMergePreview
    rw [map_cloneTable, map_cloneTable]
    dsimp only
    unfold buildMergePreviewGo
    rw [List.find?_cons_of_pos _ (by simp [singleKillTable])]
    dsimp only [singleKillTable]
    rw [show clampChannelsCount ((max m k : ℤ) : ℚ) = max m k from
      clampChannelsCount_eq_self (by omega) (by omega)]
    have hmerge := c7_merge_channels idL idI boss m k cL cI hm3 hk3
    dsimp only [singleKillTable] at hmerge
    rw [hmerge]
    dsimp only
    rw [updateFirst_cons_pos (by simp)]
    rfl
  · unfold applyMergeChoices
    rw [map_cloneTable]
    show applyConflict _ _ (c7Conflict idL boss) = _
    unfold applyConflict
    have hlook : lookupChoice [(idL ++ ":3:0", ConflictChoice.theirs)]
        (c7Conflict idL boss).id = some ConflictChoice.theirs := by
      unfold lookupChoice c7Conflict
      rw [if_pos rfl]
    rw [hlook]
    simp only [Option.getD_some, if_true]
    dsimp only [c7Preview]
    rw [updateLast_singleton (by simp [c7Conflict])]
    show [_] = _
    congr 1
    show (⟨idL, boss, max m k,
      updateFirst (fun ch => ch.channel == (c7Conflict idL boss).channel)
        (fun _ => cloneChannel (c7Conflict idL boss).theirs)
        (spikeChannels (max m k) 100), cL⟩ : BossTable) = _
    congr 1
    have hmk : 3 ≤ max m k := le_trans hm3 (le_max_left m k)
    rw [spikeChannels_decomp hmk 100]
    rw [updateFirst_append_none _ (by
      intro a ha
      have h12 : a = emptyChannel 1 ∨ a = emptyChannel 2 := by simpa using ha
      rcases h12 with rfl | rfl <;> (dsimp only [c7Conflict, emptyChannel]; decide))]
    rw [updateFirst_cons_pos (by dsimp only [c7Conflict]; decide)]
    rw [spikeChannels_decomp hmk 200]
    rfl

/-- Witness for C7 at concrete ids, boss name and channel counts. -/
theorem c7_witness :
    buildMergePreview [singleKillTable "a" "B" 3 100 0]
        [singleKillTable "b" "B" 3 200 0] [] = some (c7Preview "a" "B" 3 0) ∧
    applyMergeChoices (c7Preview "a" "B" 3 0) [("a" ++ ":3:0", ConflictChoice.theirs)] =
      [⟨"a", "B", 3, spikeChannels 3 200, 0⟩] := by
  have h := c7_single_conflict "a" "b" "B" 3 3 0 0 [] (by decide) (by decide)
    (by decide) (by decide)
  simpa using h
